import Mathlib

/-!
# message-splitter: chunk assembly, fence normalisation, line splitting, mentions

A shallow embedding of `processRawMessage` and `normalizeBackticks`
(`src/split2.go`; `src/testsplit.go` carries the same two bodies) and of
`splitLongLine` and `replaceMentions` (`src/testsplit.go`).

Go strings are byte sequences: `len`, indexing and slicing count bytes.  A
string is a list of bytes and a byte is a natural number below 256.  The
three bytes the chunk assembler looks at are the newline (10), the space (32)
and the backtick (96).

The library calls are modelled after their documented behaviour: `strings.Split`,
`strings.TrimRight`, `strings.Count`, `strings.LastIndex`, the conversion
`string(b)` of a byte, and `regexp.ReplaceAllStringFunc`, which replaces the
leftmost-first matches of the pattern from left to right, each search starting
where the previous match ended, and reads the input rune by rune (UTF-8).  A
panic of the Go code is the result `Fault.sliceOutOfRange`; a loop of the model
that is cut short by its budget is the result `Fault.outOfFuel`.
-/

namespace MessageSplitter

/-- A Go string: its bytes in order, each byte a natural number below 256. -/
abbrev GoString := List Nat

/-- UTF-8 encoding of a code point, as `string(r)` and string literals give it. -/
def encodeRune (r : Nat) : GoString :=
  if r < 0x80 then [r]
  else if r < 0x800 then [0xC0 + r / 64, 0x80 + r % 64]
  else if r < 0x10000 then [0xE0 + r / 4096, 0x80 + r / 64 % 64, 0x80 + r % 64]
  else [0xF0 + r / 262144, 0x80 + r / 4096 % 64, 0x80 + r / 64 % 64, 0x80 + r % 64]

/-- The bytes of a string literal (UTF-8), used to write concrete inputs. -/
def goString (s : String) : GoString :=
  s.toList.flatMap (fun c => encodeRune c.toNat)

/-- The fence marker, three backticks. -/
def fence : GoString := [96, 96, 96]

/-! ## Library functions the two bodies call -/

/-- The call `strings.Split(s, "\n")`: the pieces between newlines, always at least one. -/
def splitLines : GoString → List GoString
  | [] => [[]]
  | c :: cs =>
    if c = 10 then [] :: splitLines cs
    else
      match splitLines cs with
      | [] => [[c]]
      | l :: ls => (c :: l) :: ls

/-- The call `strings.TrimRight(s, " ")`: drop every trailing space. -/
def trimRight : GoString → GoString
  | [] => []
  | c :: cs =>
    match trimRight cs with
    | [] => if c = 32 then [] else [c]
    | t :: ts => c :: t :: ts

/-- The call `strings.Join(parts, "\n")`: the parts with a newline between two of them. -/
def joinLines : List GoString → GoString
  | [] => []
  | [l] => l
  | l :: l2 :: ls => l ++ 10 :: joinLines (l2 :: ls)

/-- The call `strings.Count(s, b)` for a one-byte substring `b`. -/
def countByte (b : Nat) (s : GoString) : Nat :=
  s.count b

/-- The size that `utf8.DecodeRuneInString(s)` returns: how many bytes the first rune of
`s` takes.  An ASCII byte, and a byte that starts no well-formed sequence, take
one byte; a well-formed sequence takes two to four. -/
def runeWidth : GoString → Nat
  | [] => 0
  | s0 :: rest =>
    if s0 < 0x80 then 1
    else if s0 < 0xC2 then 1
    else if s0 < 0xE0 then
      match rest with
      | s1 :: _ => if 0x80 ≤ s1 ∧ s1 ≤ 0xBF then 2 else 1
      | _ => 1
    else if s0 < 0xF0 then
      let lo := if s0 = 0xE0 then 0xA0 else 0x80
      let hi := if s0 = 0xED then 0x9F else 0xBF
      match rest with
      | s1 :: s2 :: _ =>
        if lo ≤ s1 ∧ s1 ≤ hi then
          if 0x80 ≤ s2 ∧ s2 ≤ 0xBF then 3 else 1
        else 1
      | _ => 1
    else if s0 < 0xF5 then
      let lo := if s0 = 0xF0 then 0x90 else 0x80
      let hi := if s0 = 0xF4 then 0x8F else 0xBF
      match rest with
      | s1 :: s2 :: s3 :: _ =>
        if lo ≤ s1 ∧ s1 ≤ hi then
          if 0x80 ≤ s2 ∧ s2 ≤ 0xBF then
            if 0x80 ≤ s3 ∧ s3 ≤ 0xBF then 4 else 1
          else 1
        else 1
      | _ => 1
    else 1

/-! ## `processRawMessage` -/

/-- How a run of the chunk assembler can fail to return: the slice
`line[i : i+remainingLineSpace]` panics, or the model's loop budget is used up
(the Go loop would still be running). -/
inductive Fault where
  | sliceOutOfRange
  | outOfFuel
  deriving DecidableEq, Repr

/-- The loop `for i < len(line)` of the long-line branch (lines 21-35).  `rest` is
`line[i:]`, `chunks` is the output so far and `currentChunk` the bytes held by
the builder.  The first argument bounds the number of iterations. -/
def longLineLoop (maxSize : Int) (codeBlock : Bool) :
    Nat → GoString → List GoString → GoString → Except Fault (List GoString × GoString)
  | 0, rest, chunks, currentChunk =>
    if rest = [] then .ok (chunks, currentChunk) else .error .outOfFuel
  | fuel + 1, rest, chunks, currentChunk =>
    if rest = [] then .ok (chunks, currentChunk)
    else
      let remainingLineSpace : Int := maxSize - currentChunk.length
      if (rest.length : Int) ≤ remainingLineSpace then
        let written := currentChunk ++ rest
        let reopened := if codeBlock = true ∧ written.length > 0 then written ++ fence else written
        longLineLoop maxSize codeBlock fuel [] chunks reopened
      else if remainingLineSpace < 0 then .error .sliceOutOfRange
      else
        let written := currentChunk ++ rest.take remainingLineSpace.toNat
        let chunks1 := chunks ++ [written]
        let reset : GoString := []
        let reopened := if codeBlock = true ∧ reset.length > 0 then reset ++ fence else reset
        longLineLoop maxSize codeBlock fuel (rest.drop remainingLineSpace.toNat) chunks1 reopened

/-- The loop `for _, line := range lines` (lines 14-52) followed by the final
seal (lines 53-59), with the three variables `codeBlock`, `chunks` and
`currentChunk` passed along. -/
def processLines (maxSize : Int) :
    List GoString → Bool → List GoString → GoString → Except Fault (List GoString)
  | [], codeBlock, chunks, currentChunk =>
    if currentChunk.length > 0 then
      .ok (chunks ++ [if codeBlock = true then currentChunk ++ fence else currentChunk])
    else .ok chunks
  | rawLine :: lines, codeBlock0, chunks, currentChunk =>
    let line := trimRight rawLine
    let codeBlock := if line = fence then !codeBlock0 else codeBlock0
    if (line.length : Int) > maxSize then
      match longLineLoop maxSize codeBlock (line.length + 1) line chunks currentChunk with
      | .error e => .error e
      | .ok (chunks1, currentChunk1) => processLines maxSize lines codeBlock chunks1 currentChunk1
    else
      if (currentChunk.length : Int) + line.length + 1 > maxSize then
        let sealed := if codeBlock = true then currentChunk ++ fence else currentChunk
        let chunks1 := chunks ++ [sealed]
        let reopened : GoString := if codeBlock = true then fence else []
        let separated := if reopened.length > 0 then reopened ++ [10] else reopened
        processLines maxSize lines codeBlock chunks1 (separated ++ line)
      else
        let separated := if currentChunk.length > 0 then currentChunk ++ [10] else currentChunk
        processLines maxSize lines codeBlock chunks (separated ++ line)

/-- The function `processRawMessage(message, maxSize)` of `src/split2.go`: the
lines of the message go through the loop from `codeBlock = false`, no chunk and
an empty builder. -/
def processRawMessage (message : GoString) (maxSize : Int) : Except Fault (List GoString) :=
  processLines maxSize (splitLines message) false [] []

/-! ## `normalizeBackticks` -/

/-- How many bytes the pattern `.{0,1}` takes when it takes a character at the
head of `s`: the width of the first rune, or 0 when there is none or it is a
newline (`.` does not match a newline: the pattern is compiled without the `s`
flag). -/
def dotWidth : GoString → Nat
  | [] => 0
  | c :: cs => if c = 10 then 0 else runeWidth (c :: cs)

/-- The marker and the optional trailing character, `w` bytes into `s`: the
length of the whole match when the marker stands there. -/
def fenceAt (s : GoString) (w : Nat) : Option Nat :=
  if fence.isPrefixOf (s.drop w) then some (w + 3 + dotWidth (s.drop (w + 3))) else none

/-- The match of the regular expression ".{0,1}```.{0,1}" that starts at the
head of `s`, if there is one, as its length in bytes.  Both optional characters
are greedy: the one-character alternative is tried first. -/
def matchAt (s : GoString) : Option Nat :=
  if 0 < dotWidth s then
    match fenceAt s (dotWidth s) with
    | some n => some n
    | none => fenceAt s 0
  else fenceAt s 0

/-- The conversion `string(b)` of a byte: the UTF-8 encoding of the code point
with that number. -/
def byteToString (b : Nat) : GoString :=
  encodeRune b

/-- The replacement function handed to `ReplaceAllStringFunc` (lines 70-90),
applied to one match `s`.  A match is never empty, so `s[0]` and `s[len(s)-1]`
exist. -/
def replaceMatch (s : GoString) : GoString :=
  if s = [10, 96, 96, 96, 10] then s
  else if countByte 96 s ≠ 3 then s
  else
    let leading0 := byteToString (s.headD 0)
    let trailing0 := byteToString (s.getLastD 0)
    let leading :=
      if leading0 = [96] then []
      else if leading0 ≠ [10] then leading0 ++ [10]
      else leading0
    let trailing :=
      if trailing0 = [96] then []
      else if trailing0 ≠ [10] then 10 :: trailing0
      else trailing0
    leading ++ fence ++ trailing

/-- The scan of `ReplaceAllStringFunc`: at the search position try the pattern;
on a match emit the replacement and move past the match, otherwise copy one rune
and move past it.  The first argument counts the bytes of the input that are
already dealt with and still have to be stepped over. -/
def replaceAll : Nat → GoString → GoString
  | _, [] => []
  | skip + 1, _ :: rest => replaceAll skip rest
  | 0, c :: rest =>
    match matchAt (c :: rest) with
    | some n => replaceMatch ((c :: rest).take n) ++ replaceAll (n - 1) rest
    | none => (c :: rest).take (runeWidth (c :: rest)) ++ replaceAll (runeWidth (c :: rest) - 1) rest

/-- The function `normalizeBackticks(input)` of `src/split2.go`. -/
def normalizeBackticks (input : GoString) : GoString :=
  replaceAll 0 input

/-! ## `splitLongLine` -/

/-- The constant `slack.MaxMessageTextLength` of `src/testsplit.go`. -/
def MaxMessageTextLength : Nat := 200

/-- The call `strings.LastIndex(s, b)` for a one-byte substring `b`: the index of
the last byte `b` of `s`, or -1 when there is none. -/
def lastIndexByte (b : Nat) : GoString → Int
  | [] => -1
  | c :: cs =>
    if 0 ≤ lastIndexByte b cs then lastIndexByte b cs + 1
    else if c = b then 0
    else -1

/-- The loop `for length > 0` of `splitLongLine` (lines 128-144), with `input` and
`result` passed along; `length` is `len(input)` at the head of every iteration.
The first argument bounds the number of iterations. -/
def splitLongLineLoop (maxLen minLen : Nat) :
    Nat → GoString → List GoString → Except Fault (List GoString)
  | 0, input, result => if input.length > 0 then .error .outOfFuel else .ok result
  | fuel + 1, input, result =>
    if input.length > 0 then
      if input.length < minLen then .ok (result ++ [input])
      else
        let stop := if maxLen > input.length then input.length else maxLen
        let lastSpace : Int := lastIndexByte 32 (input.take stop)
        let splitAt : Int := if lastSpace < minLen then stop else lastSpace
        splitLongLineLoop maxLen minLen fuel (input.drop splitAt.toNat)
          (result ++ [input.take splitAt.toNat])
    else .ok result

/-- The body of `splitLongLine` for a coarse budget `maxLen` and a threshold
`minLen`. -/
def splitLongLineWith (maxLen minLen : Nat) (input : GoString) : Except Fault (List GoString) :=
  splitLongLineLoop maxLen minLen input.length input []

/-- The method `splitLongLine(input)` of `src/testsplit.go`: `maxLen` is the
square of `MaxMessageTextLength` and `minLen` is `int(0.5 * float64(maxLen))`,
which is half of it (40000 and its half are exact in `float64`). -/
def splitLongLine (input : GoString) : Except Fault (List GoString) :=
  splitLongLineWith (MaxMessageTextLength * MaxMessageTextLength)
    (MaxMessageTextLength * MaxMessageTextLength / 2) input

/-! ## `replaceMentions` -/

/-- The class `[0-9a-z]` of the mention pattern. -/
def isMentionFirst (c : Nat) : Bool :=
  (48 ≤ c && c ≤ 57) || (97 ≤ c && c ≤ 122)

/-- The class `[-_0-9a-z.]` of the mention pattern. -/
def isMentionMiddle (c : Nat) : Bool :=
  c = 45 || c = 95 || isMentionFirst c || c = 46

/-- The class `[_0-9a-z]` of the mention pattern. -/
def isMentionLast (c : Nat) : Bool :=
  c = 95 || isMentionFirst c

/-- The word characters `[0-9A-Za-z_]` that `\b` tells from the others. -/
def isWordByte (c : Nat) : Bool :=
  (48 ≤ c && c ≤ 57) || (65 ≤ c && c ≤ 90) || c = 95 || (97 ≤ c && c ≤ 122)

/-- The assertion `\b` after a word character: the text ends or goes on with a
byte that is not a word character. -/
def wordEndsAt : GoString → Bool
  | [] => true
  | c :: _ => !isWordByte c

/-- The group `[-_0-9a-z.]{0,19}[_0-9a-z]` followed by `\b`, with exactly `k`
bytes taken by the repetition: the length of the group when that matches. -/
def mentionGroupAt (t : GoString) (k : Nat) : Option Nat :=
  match t.drop k with
  | [] => none
  | c :: after =>
    if (t.take k).all isMentionMiddle && isMentionLast c && wordEndsAt after then some (k + 1)
    else none

/-- The greedy repetition: the counts from `k` down to 0 are tried in that order. -/
def mentionGroup (t : GoString) : Nat → Option Nat
  | 0 => mentionGroupAt t 0
  | k + 1 =>
    match mentionGroupAt t (k + 1) with
    | some n => some n
    | none => mentionGroup t k

/-- The match of `mentionRe`, the pattern `@[0-9a-z](?:[-_0-9a-z.]{0,19}[_0-9a-z])?\b`,
that starts at the head of `s`, if there is one, as its length in bytes.  The
optional group is greedy: it is tried before its absence. -/
def mentionAt : GoString → Option Nat
  | 64 :: c :: t =>
    if isMentionFirst c then
      match mentionGroup t 19 with
      | some n => some (2 + n)
      | none => if wordEndsAt t then some 2 else none
    else none
  | _ => none

/-- The function handed to `ReplaceAllStringFunc` in `replaceMentions` (lines
149-159), applied to one match `mentioned`; `userID` is the method of that name. -/
def replaceMention (userID : GoString → Bool → GoString × Bool) (mentioned : GoString) :
    GoString :=
  if mentioned = goString "here" ∨ mentioned = goString "channel"
      ∨ mentioned = goString "everyone" then
    goString "<!" ++ mentioned ++ goString ">"
  else
    let found := userID (mentioned.drop 1) true
    if found.2 = true then goString "<@" ++ found.1 ++ goString ">"
    else mentioned

/-- The scan of `ReplaceAllStringFunc` for `mentionRe`; the first argument counts
the bytes of a match that are still to be stepped over. -/
def replaceAllMentions (userID : GoString → Bool → GoString × Bool) :
    Nat → GoString → GoString
  | _, [] => []
  | skip + 1, _ :: rest => replaceAllMentions userID skip rest
  | 0, c :: rest =>
    match mentionAt (c :: rest) with
    | some n => replaceMention userID ((c :: rest).take n)
        ++ replaceAllMentions userID (n - 1) rest
    | none => c :: replaceAllMentions userID 0 rest

/-- The method `replaceMentions(input)` of `src/testsplit.go`, for a connector
whose `userID` is the given function. -/
def replaceMentions (userID : GoString → Bool → GoString × Bool) (input : GoString) :
    GoString :=
  replaceAllMentions userID 0 input

/-- The method `userID` of `src/testsplit.go`: every name is found. -/
def userID (_mention : GoString) (_isUser : Bool) : GoString × Bool :=
  (goString "U023BECGF", true)

/-! ## Properties the claims speak of -/

deriving instance DecidableEq for Except

/-- The lengths of the maximal runs of backticks of a string, in order.  The
first argument is the length of the run that is being read. -/
def backtickRuns : Nat → GoString → List Nat
  | n, [] => if n = 0 then [] else [n]
  | n, c :: rest =>
    if c = 96 then backtickRuns (n + 1) rest
    else if n = 0 then backtickRuns 0 rest
    else n :: backtickRuns 0 rest

/-- The call `strings.Count(s, "```")`: the markers of a string, counted without overlap
from the left.  The first argument counts the bytes of a marker just counted
that are still to be stepped over. -/
def fenceCountFrom : Nat → GoString → Nat
  | _, [] => 0
  | skip + 1, _ :: rest => fenceCountFrom skip rest
  | 0, c :: rest =>
    if fence.isPrefixOf (c :: rest) then fenceCountFrom 2 rest + 1
    else fenceCountFrom 0 rest

/-- The number of fence markers written in a chunk. -/
def fenceCount (chunk : GoString) : Nat :=
  fenceCountFrom 0 chunk

/-- The number of lines of a chunk that are exactly the fence marker. -/
def fenceLineCount (chunk : GoString) : Nat :=
  ((splitLines chunk).filter (fun l => decide (l = fence))).length

/-- Every place where three backticks stand in a row is bounded by line
breaks: the byte before them is a newline or they start the string, and the byte
after them is a newline or they end the string.  A run of four or more backticks
holds three backticks followed by a fourth, so this says that every run of three
or more backticks is a run of exactly three on a line of its own. -/
def FencesOnOwnLines (s : GoString) : Prop :=
  ∀ pre post : GoString, s = pre ++ fence ++ post →
    (pre = [] ∨ pre.getLast? = some 10) ∧ (post = [] ∨ post.head? = some 10)

/-- The check of `FencesOnOwnLines` from left to right: wherever three
backticks stand, the byte before them (`prev` at the head of the string) and the
byte after them are a newline or missing. -/
def fencesBounded (prev : Option Nat) : GoString → Bool
  | [] => true
  | c :: rest =>
    (!fence.isPrefixOf (c :: rest) ||
      (decide (prev = none ∨ prev = some 10) &&
        decide ((rest.drop 2).head? = none ∨ (rest.drop 2).head? = some 10))) &&
    fencesBounded (some c) rest

/-- The text before a marker as the claim wants it: unchanged when it is empty or
ends with a newline, otherwise followed by one newline. -/
def newlineAfter (x : GoString) : GoString :=
  if x = [] ∨ x.getLast? = some 10 then x else x ++ [10]

/-- The text after a marker as the claim wants it: unchanged when it is empty or
starts with a newline, otherwise preceded by one newline. -/
def newlineBefore (y : GoString) : GoString :=
  if y = [] ∨ y.head? = some 10 then y else 10 :: y

/-- The consecutive slices `s[0:m]`, `s[m:2m]`, ... of a string: as many as
`len(s) / m` rounded up, slice `k` being `s[k*m : (k+1)*m]` cut at the end of
the string. -/
def consecutiveSlices (m : Nat) (s : GoString) : List GoString :=
  (List.range ((s.length + m - 1) / m)).map (fun k => (s.drop (k * m)).take m)

/-- The fence state after the lines read so far: lines 15-18 toggle it at every
line that is the marker once its trailing spaces are stripped. -/
def codeBlockAfter : List GoString → Bool → Bool
  | [], codeBlock => codeBlock
  | rawLine :: lines, codeBlock =>
    codeBlockAfter lines (if trimRight rawLine = fence then !codeBlock else codeBlock)

/-- A string with every newline deleted. -/
def deleteNewlines (s : GoString) : GoString :=
  s.filter (fun b => decide (b ≠ 10))

/-- The number of bytes the builder holds after a line of `lineLen` bytes that
fits is taken in outside a code block (lines 37-50), when it held `held` bytes
before: the line alone after a seal or in an empty builder, otherwise what was
held, the separating newline and the line. -/
def heldAfter (maxSize : Int) (held lineLen : Nat) : Nat :=
  if (held : Int) + lineLen + 1 > maxSize then lineLen
  else if held > 0 then held + 1 + lineLen
  else lineLen

/-- No empty line is lost: every line that is empty once its trailing spaces are
stripped is read while the builder, which holds `held` bytes at the first line,
is neither empty nor full (it holds more than 0 and less than `maxSize` bytes),
so that the line is written as a separating newline. -/
def emptyLinesKept (maxSize : Int) : Nat → List GoString → Bool
  | _, [] => true
  | held, rawLine :: lines =>
    (decide (trimRight rawLine ≠ []) ||
        (decide (0 < held) && decide ((held : Int) < maxSize))) &&
      emptyLinesKept maxSize (heldAfter maxSize held (trimRight rawLine).length) lines

/-! ## Evaluations at concrete inputs -/

/-- C1 as stated fails: inside a code block the closing marker is written
after the size test.  With `maxSize = 10` the message made of the marker line and
the line `abcdef` gives one chunk of 13 bytes. -/
theorem chunk_longer_than_maxSize :
    processRawMessage (goString "```\nabcdef") 10 = .ok [goString "```\nabcdef```"] ∧
      (10 : Int) < (goString "```\nabcdef```").length := by
  decide

/-- C2 fails on the code: the closing marker line toggles the fence state
before the chunk is sealed, so nothing is appended.  With `maxSize = 10` the
message of the three lines marker, `foo`, marker gives two chunks that hold one
marker each, counted as substrings and counted as lines. -/
theorem chunk_with_one_fence :
    processRawMessage (goString "```\nfoo\n```") 10
        = .ok [goString "```\nfoo", goString "```"] ∧
      fenceCount (goString "```\nfoo") = 1 ∧ fenceLineCount (goString "```\nfoo") = 1 ∧
      fenceCount (goString "```") = 1 ∧ fenceLineCount (goString "```") = 1 := by
  decide

/-- C3 fails on the code: after a long line inside a code block the
accumulator holds `cdefg` and the marker, 8 bytes with `maxSize = 5`; at the next
long line `remainingLineSpace` is -3 and the slice panics. -/
theorem long_line_slice_panics :
    processRawMessage (goString "```\nabcdefg\nhijklm") 5 = .error .sliceOutOfRange ∧
      longLineLoop 5 true 8 (goString "abcdefg") [] (goString "```")
        = .ok ([goString "```ab"], goString "cdefg```") ∧
      (5 : Int) - (goString "cdefg```").length = -3 := by
  decide

/-- C4 as stated fails: a line that is empty is not written while the
accumulator is empty, so the leading empty line of this message is lost. -/
theorem leading_empty_line_lost :
    processRawMessage (goString "\na") 5 = .ok [goString "a"] ∧
      (∀ l ∈ splitLines (goString "\na"), (l.length : Int) ≤ 5) ∧
      96 ∉ goString "\na" ∧
      joinLines [goString "a"]
        ≠ joinLines ((splitLines (goString "\na")).map trimRight) := by
  decide

/-- C5 fails on the code: the byte between two markers belongs to the match
of the first one, so the second marker is matched without it and gets no
newline in front.  The result ends with a run of three backticks that follows
the byte `a`. -/
theorem second_fence_not_on_own_line :
    normalizeBackticks (goString "```a```") = goString "```\na```" ∧
      backtickRuns 0 (goString "```\na```") = [3, 3] ∧
      goString "```\na```" = goString "```\na" ++ fence ∧
      (goString "```\na").getLast? = some 97 := by
  decide

/-- C6 fails on the code: a second pass puts the newline in front of the
second marker that the first pass left out. -/
theorem normalizeBackticks_twice_differs :
    normalizeBackticks (goString "```a```") = goString "```\na```" ∧
      normalizeBackticks (normalizeBackticks (goString "```a```")) = goString "```\na\n```" ∧
      normalizeBackticks (normalizeBackticks (goString "```a```"))
        ≠ normalizeBackticks (goString "```a```") := by
  decide

/-- C7 fails on the code: in a run of seven backticks after one byte the
first match takes five bytes, and the three backticks left with the byte after
them are a match with exactly three backticks, so a newline is put after the
run. -/
theorem long_run_gets_newline :
    backtickRuns 0 (goString "x```````y") = [7] ∧
      normalizeBackticks (goString "x```````y") = goString "x```````\ny" ∧
      normalizeBackticks (goString "x```````y") ≠ goString "x```````y" := by
  decide

/-- C8 fails on the code: `s[0]` is the first byte of the character before
the marker, not the character.  For `x` the two-byte character U+00E9 and `y`
empty the result starts with the encoding of U+00C3, not with `x`. -/
theorem leading_character_rewritten :
    goString "\u00e9" = [0xC3, 0xA9] ∧ 96 ∉ goString "\u00e9" ∧
      normalizeBackticks (goString "\u00e9" ++ fence ++ []) = [0xC3, 0x83, 10, 96, 96, 96] ∧
      newlineAfter (goString "\u00e9") ++ fence ++ newlineBefore []
        = [0xC3, 0xA9, 10, 96, 96, 96] ∧
      normalizeBackticks (goString "\u00e9" ++ fence ++ [])
        ≠ newlineAfter (goString "\u00e9") ++ fence ++ newlineBefore [] := by
  decide

/-- C16 fails on the code: in the long-line loop the marker of line 33 is
written only when the builder is not empty, and line 29 has just emptied it.
With `maxSize = 5`, inside the code block opened by the first line, the line
`abcdefgh` is cut into three chunks and the two chunks started during the cut
begin with `c` and `h`, not with the marker. -/
theorem split_chunks_not_reopened :
    processRawMessage (goString "```\nabcdefgh") 5
        = .ok [goString "```ab", goString "cdefg", goString "h``````"] ∧
      codeBlockAfter [goString "```"] false = true ∧
      fence.isPrefixOf (goString "cdefg") = false ∧
      fence.isPrefixOf (goString "h``````") = false := by
  decide

/-- C19 fails on the code: the seal of lines 37-46 has no test of the builder.
With `maxSize = 3` the line `abc` does not fit with a separator, so the empty
builder is sealed first and the first chunk is the empty string. -/
theorem empty_chunk_sealed :
    processRawMessage (goString "abc") 3 = .ok [[], goString "abc"] ∧
      ([] : GoString) ∈ [[], goString "abc"] := by
  decide

/-- C20 fails on the code: the character before the marker is rebuilt from its
first byte.  For the input U+00E9 followed by the marker the result without its
newline starts with the bytes C3 83, the input with the bytes C3 A9. -/
theorem neighbour_character_changed :
    deleteNewlines (normalizeBackticks (goString "\u00e9```")) = [0xC3, 0x83, 96, 96, 96] ∧
      deleteNewlines (goString "\u00e9```") = [0xC3, 0xA9, 96, 96, 96] ∧
      deleteNewlines (normalizeBackticks (goString "\u00e9```"))
        ≠ deleteNewlines (goString "\u00e9```") := by
  decide

/-- C15 fails on the code: a match of `mentionRe` starts with `@`, and line 151
compares it with `here`, `channel` and `everyone` written without it, so the
broadcast case is never taken.  With a resolver that finds no user the text comes
back unchanged, `@here` included; with the `userID` of the file both mentions
become user tags. -/
theorem broadcast_mention_not_tagged :
    replaceMentions (fun _ _ => ([], false)) (goString "@here please see @unknownuser")
        = goString "@here please see @unknownuser" ∧
      mentionAt (goString "@here please see @unknownuser") = some 5 ∧
      replaceMention (fun _ _ => ([], false)) (goString "@here") = goString "@here" ∧
      replaceMentions userID (goString "@here please see @unknownuser")
        = goString "<@U023BECGF> please see <@U023BECGF>" ∧
      replaceMentions (fun _ _ => ([], false)) (goString "@here please see @unknownuser")
        ≠ goString "<!here> please see @unknownuser" := by
  decide

/-! ## The scan of `normalizeBackticks` -/

theorem replaceAll_skip (k : Nat) (s : GoString) :
    replaceAll k s = replaceAll 0 (s.drop k) := by
  induction s generalizing k with
  | nil => simp [replaceAll]
  | cons c rest ih =>
    cases k with
    | zero => rfl
    | succ k => simpa [replaceAll] using ih k

theorem runeWidth_pos (c : Nat) (rest : GoString) : 1 ≤ runeWidth (c :: rest) := by
  simp only [runeWidth]
  repeat' split
  all_goals omega

theorem fenceAt_ge (s : GoString) (w n : Nat) (h : fenceAt s w = some n) : 3 ≤ n := by
  unfold fenceAt at h
  split_ifs at h
  simp at h
  omega

theorem matchAt_ge (s : GoString) (n : Nat) (h : matchAt s = some n) : 3 ≤ n := by
  unfold matchAt at h
  split_ifs at h
  · split at h
    · rename_i m hm
      simp at h
      have := fenceAt_ge _ _ _ hm
      omega
    · exact fenceAt_ge _ _ _ h
  · exact fenceAt_ge _ _ _ h

/-- One step of the scan, in terms of the rest of the input. -/
theorem replaceAll_step (c : Nat) (rest : GoString) :
    replaceAll 0 (c :: rest) =
      match matchAt (c :: rest) with
      | some n => replaceMatch ((c :: rest).take n) ++ replaceAll 0 ((c :: rest).drop n)
      | none => (c :: rest).take (runeWidth (c :: rest))
          ++ replaceAll 0 ((c :: rest).drop (runeWidth (c :: rest))) := by
  rw [replaceAll]
  split
  · rename_i n hn
    have h3 := matchAt_ge _ _ hn
    obtain ⟨m, rfl⟩ : ∃ m, n = m + 1 := ⟨n - 1, by omega⟩
    simp [replaceAll_skip m rest]
  · have hw := runeWidth_pos c rest
    obtain ⟨m, hm⟩ : ∃ m, runeWidth (c :: rest) = m + 1 := ⟨runeWidth (c :: rest) - 1, by omega⟩
    rw [hm]
    simp [replaceAll_skip m rest]

/-- The last byte of the character that `.` takes is not a newline. -/
theorem dot_last_ne_newline (c : Nat) (rest : GoString) (hc : c ≠ 10) :
    ((c :: rest).take (runeWidth (c :: rest))).getLast? ≠ some 10 := by
  simp only [runeWidth]
  repeat' split
  all_goals simp
  all_goals omega

theorem FencesOnOwnLines.suffix {a s : GoString} (h : FencesOnOwnLines (a ++ s)) :
    FencesOnOwnLines s := by
  intro pre post hs
  have h1 := h (a ++ pre) post (by simp [hs])
  refine ⟨?_, h1.2⟩
  rcases pre.eq_nil_or_concat with hp | ⟨l, b, hp⟩
  · exact Or.inl hp
  · right
    rcases h1.1 with h2 | h2
    · simp [hp] at h2
    · subst hp
      simpa [List.concat_eq_append, ← List.append_assoc] using h2

theorem fence_prefix_split {s : GoString} (h : fence.isPrefixOf s = true) :
    ∃ post, s = fence ++ post := by
  rw [List.isPrefixOf_iff_prefix] at h
  obtain ⟨post, hp⟩ := h
  exact ⟨post, hp.symm⟩

/-- On an input whose markers all stand on lines of their own the pattern
matches the marker alone. -/
theorem matchAt_of_ownLines {c : Nat} {rest : GoString} {n : Nat}
    (h : FencesOnOwnLines (c :: rest)) (hm : matchAt (c :: rest) = some n) :
    n = 3 ∧ (c :: rest).take 3 = fence := by
  have hzero : ∀ k, fenceAt (c :: rest) 0 = some k → k = 3 ∧ (c :: rest).take 3 = fence := by
    intro k hk
    unfold fenceAt at hk
    split_ifs at hk with hp
    obtain ⟨post, hpost⟩ := fence_prefix_split hp
    simp only [List.drop_zero] at hpost
    have h1 := (h [] post (by simpa using hpost)).2
    have hd : dotWidth post = 0 := by
      rcases h1 with h1 | h1
      · subst h1; rfl
      · cases post with
        | nil => rfl
        | cons d ds =>
          simp at h1
          subst h1
          simp [dotWidth]
    rw [hpost] at hk ⊢
    simp [fence, hd] at hk
    exact ⟨hk.symm, by simp [fence]⟩
  have hlead : ∀ k, 0 < dotWidth (c :: rest) →
      fenceAt (c :: rest) (dotWidth (c :: rest)) = some k → False := by
    intro k hw hk
    unfold fenceAt at hk
    split_ifs at hk with hp
    obtain ⟨post, hpost⟩ := fence_prefix_split hp
    have hc : c ≠ 10 := by
      intro hc
      simp [dotWidth, hc] at hw
    have hwd : dotWidth (c :: rest) = runeWidth (c :: rest) := by
      simp [dotWidth, hc]
    rw [hwd] at hpost
    have hsplit : c :: rest
        = (c :: rest).take (runeWidth (c :: rest)) ++ fence ++ post := by
      rw [List.append_assoc, ← hpost, List.take_append_drop]
    have h1 := (h _ post hsplit).1
    have hpos := runeWidth_pos c rest
    rcases h1 with h1 | h1
    · obtain ⟨m, hm⟩ : ∃ m, runeWidth (c :: rest) = m + 1 :=
        ⟨runeWidth (c :: rest) - 1, by omega⟩
      rw [hm] at h1
      simp at h1
    · exact dot_last_ne_newline c rest hc h1
  unfold matchAt at hm
  split_ifs at hm with hw
  · split at hm
    · rename_i k hk
      exact (hlead k hw hk).elim
    · exact hzero n hm
  · exact hzero n hm

theorem replaceMatch_fence : replaceMatch fence = fence := by
  decide

theorem replaceAll_of_ownLines (n : Nat) :
    ∀ s : GoString, s.length ≤ n → FencesOnOwnLines s → replaceAll 0 s = s := by
  induction n with
  | zero =>
    intro s hs _
    have : s = [] := List.length_eq_zero.mp (by omega)
    subst this
    rfl
  | succ n ih =>
    intro s hs h
    cases s with
    | nil => rfl
    | cons c rest =>
      rw [replaceAll_step]
      split
      · rename_i k hk
        obtain ⟨rfl, htake⟩ := matchAt_of_ownLines h hk
        have hsplit : c :: rest = (c :: rest).take 3 ++ (c :: rest).drop 3 :=
          (List.take_append_drop 3 _).symm
        have hsuf : FencesOnOwnLines ((c :: rest).drop 3) := by
          rw [hsplit] at h
          exact h.suffix
        rw [ih _ (by simp at hs ⊢; omega) hsuf, htake, replaceMatch_fence, ← htake]
        exact List.take_append_drop 3 _
      · have hpos := runeWidth_pos c rest
        have hsplit : c :: rest = (c :: rest).take (runeWidth (c :: rest))
            ++ (c :: rest).drop (runeWidth (c :: rest)) :=
          (List.take_append_drop _ _).symm
        have hsuf : FencesOnOwnLines ((c :: rest).drop (runeWidth (c :: rest))) := by
          rw [hsplit] at h
          exact h.suffix
        rw [ih _ (by simp at hs ⊢; omega) hsuf]
        exact List.take_append_drop _ _

/-! ## Lines and slices -/

theorem splitLines_of_no_newline (s : GoString) (h : 10 ∉ s) : splitLines s = [s] := by
  induction s with
  | nil => rfl
  | cons c cs ih =>
    simp only [List.mem_cons, not_or] at h
    have hc : c ≠ 10 := fun e => h.1 e.symm
    simp [splitLines, hc, ih h.2]

theorem trimRight_of_last_ne_space (s : GoString) (h : s.getLast? ≠ some 32) :
    trimRight s = s := by
  induction s with
  | nil => rfl
  | cons c cs ih =>
    cases cs with
    | nil =>
      have hc : c ≠ 32 := by simpa using h
      simp [trimRight, hc]
    | cons d ds =>
      have h2 : (d :: ds).getLast? ≠ some 32 := by
        simpa [List.getLast?_cons_cons] using h
      rw [trimRight, ih h2]

theorem consecutiveSlices_short (m : Nat) (s : GoString) (hs : 0 < s.length)
    (hm : s.length ≤ m) : consecutiveSlices m s = [s] := by
  have hdiv : (s.length + m - 1) / m = 1 :=
    Nat.div_eq_of_lt_le (by omega) (by omega)
  have hr : List.range 1 = [0] := rfl
  simp [consecutiveSlices, hdiv, hr, List.take_of_length_le hm]

theorem consecutiveSlices_long (m : Nat) (s : GoString) (hm : 0 < m)
    (hs : m < s.length) :
    consecutiveSlices m s = s.take m :: consecutiveSlices m (s.drop m) := by
  have hdiv : (s.length + m - 1) / m = ((s.drop m).length + m - 1) / m + 1 := by
    have e : s.length + m - 1 = ((s.drop m).length + m - 1) + m := by
      simp only [List.length_drop]
      omega
    rw [e, Nat.add_div_right _ hm]
  simp only [consecutiveSlices, hdiv, List.range_succ_eq_map, List.map_cons, List.map_map]
  simp only [Nat.zero_mul, List.drop_zero, List.cons.injEq, true_and]
  apply List.map_congr_left
  intro k _
  simp only [Function.comp, List.drop_drop]
  congr 2
  rw [Nat.succ_mul]
  omega

theorem consecutiveSlices_join (m : Nat) (hm : 0 < m) (n : Nat) :
    ∀ s : GoString, s.length ≤ n → 0 < s.length → (consecutiveSlices m s).flatten = s := by
  induction n with
  | zero => intro s h1 h2; omega
  | succ n ih =>
    intro s h1 h2
    by_cases hs : s.length ≤ m
    · simp [consecutiveSlices_short m s h2 hs]
    · rw [consecutiveSlices_long m s hm (by omega), List.flatten_cons,
        ih (s.drop m) (by simp only [List.length_drop]; omega)
          (by simp only [List.length_drop]; omega)]
      exact List.take_append_drop m s

theorem trimRight_prefix_self (l : GoString) : trimRight l <+: l := by
  induction l with
  | nil => exact List.prefix_refl _
  | cons c cs ih =>
    rw [trimRight]
    split
    · split_ifs
      · exact List.nil_prefix
      · exact ⟨cs, rfl⟩
    · rename_i t ts ht
      rw [ht] at ih
      obtain ⟨r, hr⟩ := ih
      exact ⟨r, by rw [← hr]; rfl⟩

theorem trimRight_length_le (l : GoString) : (trimRight l).length ≤ l.length :=
  (trimRight_prefix_self l).length_le

theorem mem_of_mem_trimRight {l : GoString} {b : Nat} (h : b ∈ trimRight l) : b ∈ l :=
  (trimRight_prefix_self l).subset h

theorem mem_of_mem_splitLines (s : GoString) :
    ∀ l ∈ splitLines s, ∀ b ∈ l, b ∈ s := by
  induction s with
  | nil =>
    intro l hl b hb
    simp only [splitLines, List.mem_singleton] at hl
    subst hl
    exact hb
  | cons c cs ih =>
    intro l hl b hb
    rw [splitLines] at hl
    split_ifs at hl with hc
    · simp only [List.mem_cons] at hl
      rcases hl with rfl | hl
      · simp at hb
      · exact List.mem_cons_of_mem _ (ih l hl b hb)
    · split at hl
      · simp only [List.mem_singleton] at hl
        subst hl
        simp only [List.mem_singleton] at hb
        subst hb
        exact List.mem_cons_self _ _
      · rename_i l0 ls h0
        simp only [List.mem_cons] at hl
        rcases hl with rfl | hl
        · simp only [List.mem_cons] at hb
          rcases hb with rfl | hb
          · exact List.mem_cons_self _ _
          · exact List.mem_cons_of_mem _ (ih l0 (by rw [h0]; exact List.mem_cons_self _ _) b hb)
        · exact List.mem_cons_of_mem _
            (ih l (by rw [h0]; exact List.mem_cons_of_mem _ hl) b hb)

theorem splitLines_ne_nil (s : GoString) : splitLines s ≠ [] := by
  cases s with
  | nil => simp [splitLines]
  | cons c cs =>
    rw [splitLines]
    split_ifs
    · simp
    · split <;> simp

theorem joinLines_cons (a : GoString) (L : List GoString) (h : L ≠ []) :
    joinLines (a :: L) = a ++ 10 :: joinLines L := by
  cases L with
  | nil => exact (h rfl).elim
  | cons b r => rfl

/-- Joining is the same whether two lines are held apart or already joined by
a newline. -/
theorem joinLines_merge (A : List GoString) (a b : GoString) (B : List GoString) :
    joinLines (A ++ (a ++ 10 :: b) :: B) = joinLines (A ++ a :: b :: B) := by
  induction A with
  | nil =>
    cases B with
    | nil => simp [joinLines]
    | cons b2 B => simp [joinLines]
  | cons x A ih =>
    rw [List.cons_append, List.cons_append, joinLines_cons _ _ (by simp),
      joinLines_cons _ _ (by simp), ih]

/-! ## The long-line loop -/

theorem longLineLoop_nil (maxSize : Int) (codeBlock : Bool) (fuel : Nat)
    (chunks : List GoString) (cur : GoString) :
    longLineLoop maxSize codeBlock fuel [] chunks cur = .ok (chunks, cur) := by
  cases fuel <;> simp [longLineLoop]

/-- Outside a code block and from an empty accumulator the loop seals the full
slices of the line and leaves the last one in the accumulator. -/
theorem longLineLoop_slices (m : Nat) (hm : 0 < m) (fuel : Nat) :
    ∀ (rest : GoString) (chunks : List GoString), 0 < rest.length → rest.length ≤ fuel →
      ∃ cs last, longLineLoop m false fuel rest chunks [] = .ok (chunks ++ cs, last) ∧
        last ≠ [] ∧ cs ++ [last] = consecutiveSlices m rest := by
  induction fuel with
  | zero => intro rest chunks h1 h2; omega
  | succ fuel ih =>
    intro rest chunks h1 h2
    have hne : rest ≠ [] := by
      intro e
      simp [e] at h1
    by_cases hfit : rest.length ≤ m
    · refine ⟨[], rest, ?_, hne, ?_⟩
      · have hfit2 : (rest.length : Int) ≤ (m : Int) - (([] : GoString).length : Int) := by
          simp
          exact_mod_cast hfit
        rw [longLineLoop]
        simp only [hne, if_false, hfit2, if_true]
        simp [longLineLoop_nil]
      · simp [consecutiveSlices_short m rest h1 hfit]
    · have hfit2 : ¬ (rest.length : Int) ≤ (m : Int) - (([] : GoString).length : Int) := by
        simp
        omega
      have hneg : ¬ (m : Int) - (([] : GoString).length : Int) < 0 := by
        simp
      obtain ⟨cs, last, hrun, hlast, hcs⟩ :=
        ih (rest.drop m) (chunks ++ [rest.take m])
          (by simp only [List.length_drop]; omega) (by simp only [List.length_drop]; omega)
      refine ⟨rest.take m :: cs, last, ?_, hlast, ?_⟩
      · rw [longLineLoop]
        simp only [hne, if_false, hfit2, hneg]
        simpa using hrun
      · rw [consecutiveSlices_long m rest hm (by omega), ← hcs]
        rfl

/-! ## The check of `FencesOnOwnLines` -/

theorem fencesBounded_spec (s : GoString) :
    ∀ prev : Option Nat, fencesBounded prev s = true →
      ∀ pre post : GoString, s = pre ++ fence ++ post →
        ((pre = [] ∧ (prev = none ∨ prev = some 10)) ∨ pre.getLast? = some 10) ∧
          (post = [] ∨ post.head? = some 10) := by
  induction s with
  | nil =>
    intro prev _ pre post hs
    have := congrArg List.length hs
    simp [fence] at this
    omega
  | cons c rest ih =>
    intro prev h pre post hs
    simp only [fencesBounded, Bool.and_eq_true, Bool.or_eq_true, Bool.not_eq_true',
      decide_eq_true_eq] at h
    obtain ⟨hhere, hrest⟩ := h
    cases pre with
    | nil =>
      simp only [List.nil_append] at hs
      have hp : fence.isPrefixOf (c :: rest) = true := by
        rw [hs]
        simp [fence]
      rcases hhere with hhere | ⟨h1, h2⟩
      · rw [hp] at hhere
        exact absurd hhere (by simp)
      · have hr : rest.drop 2 = post := by
          simp only [fence, List.cons_append, List.nil_append, List.cons.injEq] at hs
          rw [hs.2]
          rfl
        rw [hr] at h2
        refine ⟨Or.inl ⟨rfl, h1⟩, ?_⟩
        rcases h2 with h2 | h2
        · left
          cases post with
          | nil => rfl
          | cons d ds => simp at h2
        · exact Or.inr h2
    | cons p pre1 =>
      simp only [List.cons_append, List.cons.injEq] at hs
      obtain ⟨rfl, hs⟩ := hs
      obtain ⟨h1, h2⟩ := ih (some c) hrest pre1 post (by simpa using hs)
      refine ⟨Or.inr ?_, h2⟩
      rcases h1 with ⟨rfl, h1⟩ | h1
      · simpa using h1
      · cases pre1 with
        | nil => simp at h1
        | cons q pre2 => simpa [List.getLast?_cons_cons] using h1

theorem FencesOnOwnLines.of_check {s : GoString} (h : fencesBounded none s = true) :
    FencesOnOwnLines s := by
  intro pre post hs
  obtain ⟨h1, h2⟩ := fencesBounded_spec s none h pre post hs
  refine ⟨?_, h2⟩
  rcases h1 with ⟨h1, -⟩ | h1
  · exact Or.inl h1
  · exact Or.inr h1

/-! ## One marker between ASCII neighbours -/

theorem not_fence_prefix_of_head {d : Nat} {t : GoString} (hd : d ≠ 96) :
    fence.isPrefixOf (d :: t) = false := by
  simp only [fence, List.isPrefixOf, Bool.and_eq_false_imp, beq_iff_eq]
  intro h
  exact absurd h.symm hd

theorem FencesOnOwnLines.of_no_backtick {s : GoString} (h : 96 ∉ s) :
    FencesOnOwnLines s := by
  intro pre post hs
  exact absurd (by rw [hs]; simp [fence]) h

theorem replaceAll_of_no_backtick {s : GoString} (h : 96 ∉ s) : replaceAll 0 s = s :=
  replaceAll_of_ownLines s.length s (Nat.le_refl _) (FencesOnOwnLines.of_no_backtick h)

/-- The bytes of a character after its first byte are 128 or more. -/
theorem runeWidth_cases (c : Nat) (rest : GoString) :
    runeWidth (c :: rest) = 1 ∨
      (runeWidth (c :: rest) = 2 ∧ ∃ s1 t, rest = s1 :: t ∧ 128 ≤ s1) ∨
      (runeWidth (c :: rest) = 3 ∧ ∃ s1 s2 t, rest = s1 :: s2 :: t ∧ 128 ≤ s1 ∧ 128 ≤ s2) ∨
      (runeWidth (c :: rest) = 4 ∧
        ∃ s1 s2 s3 t, rest = s1 :: s2 :: s3 :: t ∧ 128 ≤ s1 ∧ 128 ≤ s2 ∧ 128 ≤ s3) := by
  simp only [runeWidth]
  repeat' split
  all_goals first
    | exact Or.inl rfl
    | exact Or.inr (Or.inl ⟨rfl, _, _, rfl, by omega⟩)
    | exact Or.inr (Or.inr (Or.inl ⟨rfl, _, _, _, rfl, by omega, by omega⟩))
    | exact Or.inr (Or.inr (Or.inr ⟨rfl, _, _, _, _, rfl, by omega, by omega, by omega⟩))

/-- A character does not reach over an ASCII byte. -/
theorem runeWidth_le_of_ascii (u v : GoString) (a : Nat) (ha : a < 128) (hu : u ≠ []) :
    runeWidth (u ++ a :: v) ≤ u.length := by
  cases u with
  | nil => exact absurd rfl hu
  | cons c u =>
    rw [List.cons_append]
    rcases runeWidth_cases c (u ++ a :: v) with h | ⟨h, s1, t, e, h1⟩ |
      ⟨h, s1, s2, t, e, h1, h2⟩ | ⟨h, s1, s2, s3, t, e, h1, h2, h3⟩
    · rw [h]
      simp
    · rw [h]
      rcases u with _ | ⟨d, u⟩
      · simp only [List.nil_append, List.cons.injEq] at e
        omega
      · simp
    · rw [h]
      rcases u with _ | ⟨d, _ | ⟨d2, u⟩⟩
      · simp only [List.nil_append, List.cons.injEq] at e
        omega
      · simp only [List.cons_append, List.nil_append, List.cons.injEq] at e
        omega
      · simp
    · rw [h]
      rcases u with _ | ⟨d, _ | ⟨d2, _ | ⟨d3, u⟩⟩⟩
      · simp only [List.nil_append, List.cons.injEq] at e
        omega
      · simp only [List.cons_append, List.nil_append, List.cons.injEq] at e
        omega
      · simp only [List.cons_append, List.nil_append, List.cons.injEq] at e
        omega
      · simp

theorem no_fence_inside (x0 t : GoString) (a w : Nat) (hx : 96 ∉ x0) (ha : a ≠ 96)
    (hw : w ≤ x0.length) : fence.isPrefixOf ((x0 ++ a :: t).drop w) = false := by
  rw [List.drop_append_of_le_length hw]
  cases hd : x0.drop w with
  | nil => exact not_fence_prefix_of_head ha
  | cons d ds =>
    have hmem : d ∈ x0 := List.mem_of_mem_drop (by rw [hd]; exact List.mem_cons_self _ _)
    exact not_fence_prefix_of_head (fun e => hx (e ▸ hmem))

theorem matchAt_none_inside (c : Nat) (r t : GoString) (a : Nat) (hx : 96 ∉ c :: r)
    (ha : a < 128) (ha2 : a ≠ 96) : matchAt (c :: r ++ a :: t) = none := by
  have h0 : fenceAt (c :: r ++ a :: t) 0 = none := by
    have := no_fence_inside (c :: r) t a 0 hx ha2 (Nat.zero_le _)
    simp only [fenceAt, this]
    simp
  have hw : fenceAt (c :: r ++ a :: t) (dotWidth (c :: r ++ a :: t)) = none := by
    have hle : dotWidth (c :: r ++ a :: t) ≤ (c :: r).length := by
      simp only [List.cons_append, dotWidth]
      split_ifs
      · exact Nat.zero_le _
      · exact runeWidth_le_of_ascii (c :: r) t a ha (by simp)
    have := no_fence_inside (c :: r) t a _ hx ha2 hle
    simp only [fenceAt, this]
    simp
  simp only [matchAt, hw, h0]
  split_ifs <;> rfl

/-- The scan copies what stands before the last byte in front of the marker. -/
theorem replaceAll_through (n : Nat) :
    ∀ x0 : GoString, x0.length ≤ n → 96 ∉ x0 → ∀ (a : Nat) (t : GoString),
      a < 128 → a ≠ 96 → replaceAll 0 (x0 ++ a :: t) = x0 ++ replaceAll 0 (a :: t) := by
  induction n with
  | zero =>
    intro x0 hlen _ a t _ _
    have : x0 = [] := List.length_eq_zero.mp (by omega)
    subst this
    rfl
  | succ n ih =>
    intro x0 hlen hx a t ha ha2
    cases x0 with
    | nil => rfl
    | cons c r =>
      have hnone := matchAt_none_inside c r t a hx ha ha2
      have hpos := runeWidth_pos c (r ++ a :: t)
      have hle := runeWidth_le_of_ascii (c :: r) t a ha (by simp)
      have e : c :: (r ++ a :: t) = (c :: r) ++ a :: t := rfl
      rw [List.cons_append] at hnone hle ⊢
      rw [replaceAll_step, hnone]
      simp only
      generalize runeWidth (c :: (r ++ a :: t)) = w at hpos hle
      rw [e, List.take_append_of_le_length hle, List.drop_append_of_le_length hle,
        ih ((c :: r).drop w) (by simp only [List.length_drop, List.length_cons] at hlen ⊢; omega)
          (fun h => hx (List.mem_of_mem_drop h)) a t ha ha2,
        ← List.append_assoc, List.take_append_drop]

theorem runeWidth_ascii (d : Nat) (ds : GoString) (hd : d < 128) :
    runeWidth (d :: ds) = 1 := by
  simp [runeWidth, hd]

theorem dotWidth_ascii (d : Nat) (ds : GoString) (hd : d < 128) :
    dotWidth (d :: ds) = if d = 10 then 0 else 1 := by
  simp [dotWidth, runeWidth_ascii d ds hd]

theorem matchAt_fence_head (y : GoString) (hy : 96 ∉ y) :
    matchAt (fence ++ y) = some (3 + dotWidth y) := by
  have h1 : fenceAt (fence ++ y) 1 = none := by
    cases y with
    | nil => rfl
    | cons d ds =>
      have hd : d ≠ 96 := fun e => hy (e ▸ List.mem_cons_self _ _)
      have hd2 : (96 : Nat) ≠ d := fun e => hd e.symm
      simp [fenceAt, fence, List.isPrefixOf, hd2]
  have h0 : fenceAt (fence ++ y) 0 = some (3 + dotWidth y) := by
    simp [fenceAt, fence, List.isPrefixOf]
  have hw : dotWidth (fence ++ y) = 1 := by
    simp [fence, dotWidth, runeWidth]
  simp [matchAt, hw, h1, h0]

theorem matchAt_lead (a : Nat) (y : GoString) (ha : a < 128) (ha2 : a ≠ 10) :
    matchAt (a :: (fence ++ y)) = some (4 + dotWidth y) := by
  have hw : dotWidth (a :: (fence ++ y)) = 1 := by
    simp [dotWidth, ha2, runeWidth, ha]
  have h1 : fenceAt (a :: (fence ++ y)) 1 = some (4 + dotWidth y) := by
    simp [fenceAt, fence, List.isPrefixOf]
  unfold matchAt
  rw [hw, h1]
  rfl

theorem replaceMatch_trail (d : Nat) (hd : d < 128) (hd2 : d ≠ 96) (hd3 : d ≠ 10) :
    replaceMatch (fence ++ [d]) = fence ++ [10, d] := by
  have hc : (96 : Nat) ≠ d := fun e => hd2 e.symm
  simp [replaceMatch, fence, countByte, byteToString, encodeRune, hd, hd2, hd3,
    List.count_cons, hc]

theorem replaceMatch_lead (a : Nat) (ha : a < 128) (ha2 : a ≠ 96) (ha3 : a ≠ 10) :
    replaceMatch (a :: fence) = a :: 10 :: fence := by
  have hc : (96 : Nat) ≠ a := fun e => ha2 e.symm
  simp [replaceMatch, fence, countByte, byteToString, encodeRune, ha, ha2, ha3,
    List.count_cons, hc]

theorem replaceMatch_both (a d : Nat) (ha : a < 128) (ha2 : a ≠ 96) (ha3 : a ≠ 10)
    (hd : d < 128) (hd2 : d ≠ 96) (hd3 : d ≠ 10) :
    replaceMatch (a :: fence ++ [d]) = a :: 10 :: fence ++ [10, d] := by
  have hc : (96 : Nat) ≠ a := fun e => ha2 e.symm
  have hc2 : (96 : Nat) ≠ d := fun e => hd2 e.symm
  simp [replaceMatch, fence, countByte, byteToString, encodeRune, ha, ha2, ha3, hd, hd2, hd3,
    List.count_cons, hc, hc2]

theorem replaceAll_at_fence (y : GoString) (hy : 96 ∉ y)
    (hya : ∀ b, y.head? = some b → b < 128) :
    replaceAll 0 (fence ++ y) = fence ++ newlineBefore y := by
  cases y with
  | nil => decide
  | cons d ds =>
    have hd : d < 128 := hya d rfl
    have hd2 : d ≠ 96 := fun e => hy (e ▸ List.mem_cons_self _ _)
    have hds : 96 ∉ ds := fun h => hy (List.mem_cons_of_mem _ h)
    have hm := matchAt_fence_head (d :: ds) hy
    rw [dotWidth_ascii d ds hd] at hm
    have e : fence ++ d :: ds = 96 :: (96 :: 96 :: d :: ds) := rfl
    rw [e] at hm ⊢
    rw [replaceAll_step, hm]
    by_cases h10 : d = 10
    · subst h10
      have hrest : replaceAll 0 (10 :: ds) = 10 :: ds := replaceAll_of_no_backtick hy
      simp only [if_true, Nat.add_zero, List.take_succ_cons, List.take_zero,
        List.drop_succ_cons, List.drop_zero, hrest]
      rfl
    · have hrest : replaceAll 0 ds = ds := replaceAll_of_no_backtick hds
      have hrep := replaceMatch_trail d hd hd2 h10
      simp only [h10, if_false, List.take_succ_cons, List.take_zero,
        List.drop_succ_cons, List.drop_zero, hrest]
      have e2 : [96, 96, 96, d] = fence ++ [d] := rfl
      rw [e2, hrep]
      simp [newlineBefore, h10, fence]

theorem replaceAll_at_lead (a : Nat) (y : GoString) (ha : a < 128) (ha2 : a ≠ 96)
    (ha3 : a ≠ 10) (hy : 96 ∉ y) (hya : ∀ b, y.head? = some b → b < 128) :
    replaceAll 0 (a :: (fence ++ y)) = a :: 10 :: fence ++ newlineBefore y := by
  have hm := matchAt_lead a y ha ha3
  rw [replaceAll_step, hm]
  cases y with
  | nil =>
    have hrep := replaceMatch_lead a ha ha2 ha3
    simp only [dotWidth, Nat.add_zero, List.append_nil]
    have e1 : List.take 4 (a :: fence) = a :: fence := rfl
    have e2 : List.drop 4 (a :: fence) = [] := rfl
    rw [e1, e2, hrep]
    rfl
  | cons d ds =>
    have hd : d < 128 := hya d rfl
    have hd2 : d ≠ 96 := fun e => hy (e ▸ List.mem_cons_self _ _)
    have hds : 96 ∉ ds := fun h => hy (List.mem_cons_of_mem _ h)
    rw [dotWidth_ascii d ds hd]
    by_cases h10 : d = 10
    · subst h10
      have hrest : replaceAll 0 (10 :: ds) = 10 :: ds := replaceAll_of_no_backtick hy
      have hrep := replaceMatch_lead a ha ha2 ha3
      have e1 : List.take (4 + 0) (a :: (fence ++ 10 :: ds)) = a :: fence := rfl
      have e2 : List.drop (4 + 0) (a :: (fence ++ 10 :: ds)) = 10 :: ds := rfl
      simp only [if_true]
      rw [e1, e2, hrep, hrest]
      rfl
    · have hrest : replaceAll 0 ds = ds := replaceAll_of_no_backtick hds
      have hrep := replaceMatch_both a d ha ha2 ha3 hd hd2 h10
      have e1 : List.take (4 + 1) (a :: (fence ++ d :: ds)) = a :: fence ++ [d] := rfl
      have e2 : List.drop (4 + 1) (a :: (fence ++ d :: ds)) = ds := rfl
      simp only [h10, if_false]
      rw [e1, e2, hrep, hrest]
      simp [newlineBefore, h10, fence]

/-- With ASCII bytes next to the marker, and no other backtick, the marker is
put on a line of its own: a newline is added before it unless the text before
is empty or ends with one, and after it unless the text after is empty or starts
with one. -/
theorem normalizeBackticks_single_fence_ascii (x y : GoString) (hx : 96 ∉ x) (hy : 96 ∉ y)
    (hxa : ∀ b, x.getLast? = some b → b < 128) (hya : ∀ b, y.head? = some b → b < 128) :
    normalizeBackticks (x ++ fence ++ y) = newlineAfter x ++ fence ++ newlineBefore y := by
  unfold normalizeBackticks
  rcases x.eq_nil_or_concat with hnil | ⟨x0, a, hcat⟩
  · subst hnil
    simpa [newlineAfter] using replaceAll_at_fence y hy hya
  · subst hcat
    rw [List.concat_eq_append] at hx hxa ⊢
    have ha : a < 128 := hxa a (by simp)
    have ha2 : a ≠ 96 := fun e => hx (by simp [e])
    have hx0 : 96 ∉ x0 := fun h => hx (by simp [h])
    have e : x0 ++ [a] ++ fence ++ y = x0 ++ a :: (fence ++ y) := by simp
    rw [e, replaceAll_through x0.length x0 (Nat.le_refl _) hx0 a _ ha ha2]
    by_cases h10 : a = 10
    · subst h10
      have hm : matchAt (10 :: (fence ++ y)) = none := by
        simp [matchAt, dotWidth, fenceAt, fence, List.isPrefixOf]
      rw [replaceAll_step, hm]
      simp only [runeWidth_ascii 10 _ (by decide), List.take_succ_cons, List.take_zero,
        List.drop_succ_cons, List.drop_zero, replaceAll_at_fence y hy hya]
      simp [newlineAfter]
    · rw [replaceAll_at_lead a y ha ha2 h10 hy hya]
      simp [newlineAfter, h10]

/-! ## Claims on `normalizeBackticks` -/

/-- C9: an input in which every run of three or more backticks is a run of
exactly three, preceded by a newline or the start of the string and followed by
a newline or its end, is returned unchanged: no newline is added where one
stands already. -/
theorem normalizeBackticks_keeps_normalized (input : GoString)
    (h : FencesOnOwnLines input) : normalizeBackticks input = input :=
  replaceAll_of_ownLines input.length input (Nat.le_refl _) h

theorem normalizeBackticks_keeps_normalized_witness :
    FencesOnOwnLines (goString "a`b \n```\nc ``d\n```") ∧
      normalizeBackticks (goString "a`b \n```\nc ``d\n```")
        = goString "a`b \n```\nc ``d\n```" :=
  ⟨FencesOnOwnLines.of_check (by decide),
    normalizeBackticks_keeps_normalized _ (FencesOnOwnLines.of_check (by decide))⟩

/-! ## The loop budget -/

/-- With a positive `maxSize` the loop budget is never used up: after the
first iteration the accumulator is empty at the head of the loop, so every
further iteration takes at least one byte of the line. -/
theorem longLineLoop_ne_outOfFuel (maxSize : Int) (hpos : 0 < maxSize) (cb : Bool)
    (fuel : Nat) :
    ∀ (rest : GoString) (chunks : List GoString) (cur : GoString),
      (rest.length + 1 ≤ fuel ∨ ((cur.length : Int) < maxSize ∧ rest.length ≤ fuel)) →
      longLineLoop maxSize cb fuel rest chunks cur ≠ .error .outOfFuel := by
  induction fuel with
  | zero =>
    intro rest chunks cur h
    have hnil : rest = [] := List.length_eq_zero.mp (by omega)
    simp [longLineLoop, hnil]
  | succ fuel ih =>
    intro rest chunks cur h
    rw [longLineLoop]
    by_cases hnil : rest = []
    · simp [hnil]
    · have hlen : 0 < rest.length := List.length_pos.mpr hnil
      simp only [hnil, if_false]
      by_cases hfit : (rest.length : Int) ≤ maxSize - cur.length
      · simp [hfit, longLineLoop_nil]
      · simp only [hfit, if_false]
        by_cases hneg : maxSize - (cur.length : Int) < 0
        · simp [hneg]
        · simp only [hneg, if_false]
          apply ih
          right
          refine ⟨by simpa using hpos, ?_⟩
          simp only [List.length_drop]
          rcases h with h | ⟨h1, h2⟩
          · omega
          · have : 1 ≤ (maxSize - (cur.length : Int)).toNat := by omega
            omega

/-- With a positive `maxSize` the run of the assembler ends: it returns its
chunks or it stops at the slice. -/
theorem processLines_ne_outOfFuel (maxSize : Int) (hpos : 0 < maxSize)
    (lines : List GoString) :
    ∀ (cb : Bool) (chunks : List GoString) (cur : GoString),
      processLines maxSize lines cb chunks cur ≠ .error .outOfFuel := by
  induction lines with
  | nil =>
    intro cb chunks cur
    simp only [processLines]
    split_ifs <;> simp
  | cons rawLine lines ih =>
    intro cb chunks cur
    rw [processLines]
    simp only
    generalize (if trimRight rawLine = fence then !cb else cb) = cb1
    generalize trimRight rawLine = line
    by_cases hlong : (line.length : Int) > maxSize
    · simp only [hlong, if_true]
      split
      · rename_i e he
        intro h
        simp only [Except.error.injEq] at h
        subst h
        exact longLineLoop_ne_outOfFuel maxSize hpos _ _ _ _ _ (Or.inl (Nat.le_refl _)) he
      · exact ih _ _ _
    · simp only [hlong, if_false]
      split_ifs <;> exact ih _ _ _

/-! ## The size of the chunks -/

theorem longLineLoop_bound (maxSize : Int) (cb : Bool) (fuel : Nat) :
    ∀ (rest : GoString) (chunks : List GoString) (cur : GoString)
      (chunks1 : List GoString) (cur1 : GoString),
      longLineLoop maxSize cb fuel rest chunks cur = .ok (chunks1, cur1) →
      (∀ c ∈ chunks, (c.length : Int) ≤ maxSize + 7) → (cur.length : Int) ≤ maxSize + 4 →
      (∀ c ∈ chunks1, (c.length : Int) ≤ maxSize + 7) ∧ (cur1.length : Int) ≤ maxSize + 4 := by
  induction fuel with
  | zero =>
    intro rest chunks cur chunks1 cur1 h hch hcur
    simp only [longLineLoop] at h
    split_ifs at h
    simp only [Except.ok.injEq, Prod.mk.injEq] at h
    obtain ⟨rfl, rfl⟩ := h
    exact ⟨hch, hcur⟩
  | succ fuel ih =>
    intro rest chunks cur chunks1 cur1 h hch hcur
    rw [longLineLoop] at h
    by_cases hnil : rest = []
    · simp only [hnil, if_true, Except.ok.injEq, Prod.mk.injEq] at h
      obtain ⟨rfl, rfl⟩ := h
      exact ⟨hch, hcur⟩
    · simp only [hnil, if_false] at h
      by_cases hfit : (rest.length : Int) ≤ maxSize - cur.length
      · simp only [hfit, if_true, longLineLoop_nil, Except.ok.injEq, Prod.mk.injEq] at h
        obtain ⟨rfl, rfl⟩ := h
        refine ⟨hch, ?_⟩
        split_ifs <;> simp [fence] <;> omega
      · simp only [hfit, if_false] at h
        by_cases hneg : maxSize - (cur.length : Int) < 0
        · simp [hneg] at h
        · simp only [hneg, if_false] at h
          refine ih _ _ _ _ _ h ?_ ?_
          · intro c hc
            simp only [List.mem_append, List.mem_singleton] at hc
            rcases hc with hc | rfl
            · exact hch c hc
            · simp only [List.length_append, List.length_take]
              omega
          · simp
            omega

theorem processLines_bound (maxSize : Int) (lines : List GoString) :
    ∀ (cb : Bool) (chunks : List GoString) (cur : GoString) (out : List GoString),
      processLines maxSize lines cb chunks cur = .ok out →
      (∀ c ∈ chunks, (c.length : Int) ≤ maxSize + 7) → (cur.length : Int) ≤ maxSize + 4 →
      ∀ c ∈ out, (c.length : Int) ≤ maxSize + 7 := by
  induction lines with
  | nil =>
    intro cb chunks cur out h hch hcur c hc
    simp only [processLines] at h
    by_cases h1 : cur.length > 0
    · simp only [h1, if_true, Except.ok.injEq] at h
      subst h
      simp only [List.mem_append, List.mem_singleton] at hc
      rcases hc with hc | rfl
      · exact hch c hc
      · cases cb <;> (try simp [fence]) <;> omega
    · simp only [h1, if_false, Except.ok.injEq] at h
      subst h
      exact hch c hc
  | cons rawLine lines ih =>
    intro cb chunks cur out h hch hcur
    rw [processLines] at h
    simp only at h
    generalize (if trimRight rawLine = fence then !cb else cb) = cb1 at h
    generalize trimRight rawLine = line at h
    by_cases hlong : (line.length : Int) > maxSize
    · simp only [hlong, if_true] at h
      split at h
      · simp at h
      · rename_i chunks1 cur1 hrun
        obtain ⟨h1, h2⟩ := longLineLoop_bound _ _ _ _ _ _ _ _ hrun hch hcur
        exact ih _ _ _ _ h h1 h2
    · simp only [hlong, if_false] at h
      by_cases hseal : (cur.length : Int) + line.length + 1 > maxSize
      · simp only [hseal, if_true] at h
        refine ih _ _ _ _ h ?_ ?_
        · intro c hc
          simp only [List.mem_append, List.mem_singleton] at hc
          rcases hc with hc | rfl
          · exact hch c hc
          · cases cb1 <;> (try simp [fence]) <;> omega
        · cases cb1 <;> (try simp [fence]) <;> omega
      · simp only [hseal, if_false] at h
        refine ih _ _ _ _ h hch ?_
        split_ifs <;> (try simp) <;> omega

/-! ## Lines that fit, outside a code block -/

/-- Outside a code block, from a non-empty accumulator, lines that are not
empty and not longer than `maxSize` are all written, one newline or one chunk
boundary between two of them. -/
theorem processLines_join (maxSize : Int) (lines : List GoString) :
    ∀ (chunks : List GoString) (cur : GoString), cur ≠ [] →
      (∀ l ∈ lines, trimRight l ≠ [] ∧ trimRight l ≠ fence ∧
        ((trimRight l).length : Int) ≤ maxSize) →
      ∃ out, processLines maxSize lines false chunks cur = .ok out ∧
        joinLines out = joinLines (chunks ++ cur :: lines.map trimRight) := by
  induction lines with
  | nil =>
    intro chunks cur hcur _
    have hpos : cur.length > 0 := List.length_pos.mpr hcur
    exact ⟨chunks ++ [cur], by simp [processLines, hpos], by simp⟩
  | cons rawLine lines ih =>
    intro chunks cur hcur hl
    obtain ⟨hne, hnf, hlen⟩ := hl rawLine (List.mem_cons_self _ _)
    have hrest : ∀ l ∈ lines, trimRight l ≠ [] ∧ trimRight l ≠ fence ∧
        ((trimRight l).length : Int) ≤ maxSize :=
      fun l h => hl l (List.mem_cons_of_mem _ h)
    have hpos : cur.length > 0 := List.length_pos.mpr hcur
    have hlong : ¬ ((trimRight rawLine).length : Int) > maxSize := by omega
    rw [processLines]
    simp only [hnf, if_false, hlong]
    by_cases hseal : (cur.length : Int) + (trimRight rawLine).length + 1 > maxSize
    · obtain ⟨out, hout, hjoin⟩ := ih (chunks ++ [cur]) (trimRight rawLine) hne hrest
      refine ⟨out, ?_, ?_⟩
      · simpa [hseal] using hout
      · simpa using hjoin
    · obtain ⟨out, hout, hjoin⟩ :=
        ih chunks (cur ++ 10 :: trimRight rawLine) (by simp) hrest
      refine ⟨out, ?_, ?_⟩
      · simpa [hseal, hpos] using hout
      · rw [hjoin, joinLines_merge]
        rfl

/-- Outside a code block, from a non-empty builder, lines that fit are all
written, one newline or one chunk boundary between two of them, as long as every
empty line is read while the builder is neither empty nor full. -/
theorem processLines_join_kept (maxSize : Int) (lines : List GoString) :
    ∀ (chunks : List GoString) (cur : GoString), cur ≠ [] →
      (∀ l ∈ lines, trimRight l ≠ fence ∧ ((trimRight l).length : Int) ≤ maxSize) →
      emptyLinesKept maxSize cur.length lines = true →
      ∃ out, processLines maxSize lines false chunks cur = .ok out ∧
        joinLines out = joinLines (chunks ++ cur :: lines.map trimRight) := by
  induction lines with
  | nil =>
    intro chunks cur hcur _ _
    have hpos : cur.length > 0 := List.length_pos.mpr hcur
    exact ⟨chunks ++ [cur], by simp [processLines, hpos], by simp⟩
  | cons rawLine lines ih =>
    intro chunks cur hcur hl hkept
    obtain ⟨hnf, hlen⟩ := hl rawLine (List.mem_cons_self _ _)
    have hrest : ∀ l ∈ lines, trimRight l ≠ fence ∧ ((trimRight l).length : Int) ≤ maxSize :=
      fun l h => hl l (List.mem_cons_of_mem _ h)
    have hpos : cur.length > 0 := List.length_pos.mpr hcur
    have hlong : ¬ ((trimRight rawLine).length : Int) > maxSize := by omega
    simp only [emptyLinesKept, Bool.and_eq_true, Bool.or_eq_true, decide_eq_true_eq] at hkept
    obtain ⟨hhere, hnext⟩ := hkept
    rw [processLines]
    simp only [hnf, if_false, hlong]
    by_cases hseal : (cur.length : Int) + (trimRight rawLine).length + 1 > maxSize
    · have hne : trimRight rawLine ≠ [] := by
        rcases hhere with h | ⟨-, h⟩
        · exact h
        · intro e
          rw [e] at hseal
          simp only [List.length_nil] at hseal
          omega
      have hheld : heldAfter maxSize cur.length (trimRight rawLine).length
          = (trimRight rawLine).length := by
        simp [heldAfter, hseal]
      rw [hheld] at hnext
      obtain ⟨out, hout, hjoin⟩ := ih (chunks ++ [cur]) (trimRight rawLine) hne hrest hnext
      refine ⟨out, ?_, ?_⟩
      · simpa [hseal] using hout
      · simpa using hjoin
    · have hheld : heldAfter maxSize cur.length (trimRight rawLine).length
          = (cur ++ 10 :: trimRight rawLine).length := by
        simp only [heldAfter, hseal, if_false, hpos, if_true, List.length_append,
          List.length_cons]
        omega
      rw [hheld] at hnext
      obtain ⟨out, hout, hjoin⟩ :=
        ih chunks (cur ++ 10 :: trimRight rawLine) (by simp) hrest hnext
      refine ⟨out, ?_, ?_⟩
      · simpa [hseal, hpos] using hout
      · rw [hjoin, joinLines_merge]
        rfl

/-! ## The proviso on empty lines is needed -/

/-- A chunk that is sealed stays in the result. -/
theorem processLines_chunks_subset (maxSize : Int) (lines : List GoString) :
    ∀ (cb : Bool) (chunks : List GoString) (cur : GoString) (out : List GoString),
      (∀ l ∈ lines, ((trimRight l).length : Int) ≤ maxSize) →
      processLines maxSize lines cb chunks cur = .ok out → ∀ c ∈ chunks, c ∈ out := by
  induction lines with
  | nil =>
    intro cb chunks cur out _ h c hc
    simp only [processLines] at h
    by_cases h0 : cur.length > 0
    · simp only [h0, if_true, Except.ok.injEq] at h
      subst h
      exact List.mem_append_left _ hc
    · simp only [h0, if_false, Except.ok.injEq] at h
      subst h
      exact hc
  | cons rawLine lines ih =>
    intro cb chunks cur out hl h c hc
    have hlen := hl rawLine (List.mem_cons_self _ _)
    have hrest : ∀ l ∈ lines, ((trimRight l).length : Int) ≤ maxSize :=
      fun l hm => hl l (List.mem_cons_of_mem _ hm)
    have hlong : ¬ ((trimRight rawLine).length : Int) > maxSize := by omega
    rw [processLines] at h
    simp only [hlong, if_false] at h
    generalize (if trimRight rawLine = fence then !cb else cb) = cb1 at h
    by_cases hseal : (cur.length : Int) + (trimRight rawLine).length + 1 > maxSize
    · simp only [hseal, if_true] at h
      exact ih _ _ _ _ hrest h c (List.mem_append_left _ hc)
    · simp only [hseal, if_false] at h
      exact ih _ _ _ _ hrest h c hc

theorem count_newline_joinLines (L : List GoString) (hL : L ≠ []) :
    List.count 10 (joinLines L) + 1 = List.count 10 L.flatten + L.length := by
  induction L with
  | nil => exact absurd rfl hL
  | cons a L ih =>
    cases L with
    | nil => simp [joinLines]
    | cons b r =>
      have h := ih (by simp)
      rw [joinLines_cons a (b :: r) (by simp)]
      simp only [List.count_append, List.count_cons_self, List.flatten_cons,
        List.length_cons] at h ⊢
      omega

/-- Outside a code block, for lines that fit and a result without an empty
chunk, the result has at most one line per line read, and fewer when an empty
line is read while the builder is empty or full. -/
theorem processLines_line_count (maxSize : Int) (lines : List GoString) :
    ∀ (chunks : List GoString) (cur : GoString) (out : List GoString),
      (∀ l ∈ lines, trimRight l ≠ fence ∧ ((trimRight l).length : Int) ≤ maxSize ∧
        10 ∉ trimRight l) →
      processLines maxSize lines false chunks cur = .ok out → [] ∉ out →
      (List.count 10 out.flatten + out.length
          ≤ List.count 10 (chunks.flatten ++ cur) + chunks.length
            + (if cur = [] then 0 else 1) + lines.length) ∧
        (emptyLinesKept maxSize cur.length lines = false →
          List.count 10 out.flatten + out.length
            < List.count 10 (chunks.flatten ++ cur) + chunks.length
              + (if cur = [] then 0 else 1) + lines.length) := by
  induction lines with
  | nil =>
    intro chunks cur out _ h _
    simp only [processLines] at h
    by_cases h0 : cur.length > 0
    · have hne : cur ≠ [] := List.length_pos.mp h0
      simp only [h0, if_true, Except.ok.injEq] at h
      subst h
      simp [emptyLinesKept, hne]
      omega
    · have hnil : cur = [] := List.length_eq_zero.mp (by omega)
      simp only [h0, if_false, Except.ok.injEq] at h
      subst h
      simp [emptyLinesKept, hnil]
  | cons rawLine lines ih =>
    intro chunks cur out hl h hout
    obtain ⟨hnf, hlen, hnl⟩ := hl rawLine (List.mem_cons_self _ _)
    have hrest : ∀ l ∈ lines, trimRight l ≠ fence ∧ ((trimRight l).length : Int) ≤ maxSize ∧
        10 ∉ trimRight l := fun l hm => hl l (List.mem_cons_of_mem _ hm)
    have hfit : ∀ l ∈ lines, ((trimRight l).length : Int) ≤ maxSize :=
      fun l hm => (hrest l hm).2.1
    have hlong : ¬ ((trimRight rawLine).length : Int) > maxSize := by omega
    have hcount : List.count 10 (trimRight rawLine) = 0 := List.count_eq_zero.mpr hnl
    rw [processLines] at h
    simp only [hnf, if_false, hlong] at h
    simp only [emptyLinesKept, Bool.and_eq_false_iff, Bool.or_eq_false_iff,
      decide_eq_false_iff_not, Decidable.not_not, List.length_cons]
    generalize htl : trimRight rawLine = line at h hcount hlen ⊢
    by_cases hseal : (cur.length : Int) + line.length + 1 > maxSize
    · simp only [hseal, if_true, Bool.false_eq_true, if_false, List.length_nil,
        Nat.lt_irrefl, List.nil_append] at h
      have hcur : cur ≠ [] := by
        intro e
        exact hout (processLines_chunks_subset maxSize lines false _ _ out hfit h []
          (by simp [e]))
      obtain ⟨h1, h2⟩ := ih _ _ out hrest h hout
      have hheld : heldAfter maxSize cur.length line.length = line.length := by
        simp [heldAfter, hseal]
      rw [hheld]
      simp only [List.flatten_append, List.flatten_cons, List.flatten_nil, List.append_nil,
        List.count_append, List.length_append, List.length_singleton, hcount, hcur,
        if_false] at h1 h2 ⊢
      by_cases hline : line = []
      · simp only [hline, if_true] at h1 h2 ⊢
        refine ⟨by omega, fun _ => by omega⟩
      · simp only [hline, if_false] at h1 h2 ⊢
        refine ⟨by omega, ?_⟩
        intro hk
        rcases hk with ⟨hk, -⟩ | hk
        · exact hk.elim
        · have := h2 hk
          omega
    · simp only [hseal, if_false] at h
      by_cases hcur : cur = []
      · subst hcur
        simp only [List.length_nil, Nat.lt_irrefl, if_false, List.nil_append] at h
        obtain ⟨h1, h2⟩ := ih _ _ out hrest h hout
        have hheld : heldAfter maxSize 0 line.length = line.length := by
          simp only [heldAfter, Nat.lt_irrefl, if_false, ite_self]
        simp only [List.length_nil, hheld]
        simp only [List.append_nil, List.count_append, hcount, if_true] at h1 h2 ⊢
        by_cases hline : line = []
        · simp only [hline, if_true] at h1 h2 ⊢
          refine ⟨by omega, fun _ => by omega⟩
        · simp only [hline, if_false] at h1 h2 ⊢
          refine ⟨by omega, ?_⟩
          intro hk
          rcases hk with ⟨hk, -⟩ | hk
          · exact hk.elim
          · have := h2 hk
            omega
      · have hpos : cur.length > 0 := List.length_pos.mpr hcur
        simp only [hpos, if_true] at h
        obtain ⟨h1, h2⟩ := ih _ _ out hrest h hout
        have hheld : heldAfter maxSize cur.length line.length
            = (cur ++ [10] ++ line).length := by
          simp only [heldAfter, hseal, if_false, hpos, if_true, List.length_append,
            List.length_singleton]
        rw [hheld]
        have hne2 : cur ++ [10] ++ line ≠ [] := by simp
        simp only [List.count_append, List.count_singleton_self, hcount, hne2, hcur,
          if_false] at h1 h2 ⊢
        refine ⟨by omega, ?_⟩
        intro hk
        rcases hk with ⟨-, hk⟩ | hk
        · exfalso
          rcases hk with hk | hk
          · omega
          · omega
        · have := h2 hk
          omega

/-! ## Claims on `processRawMessage` -/

theorem consecutiveSlices_length_bounds (m : Nat) (hm : 0 < m) (s c : GoString)
    (hc : c ∈ consecutiveSlices m s) : 1 ≤ c.length ∧ c.length ≤ m := by
  simp only [consecutiveSlices, List.mem_map, List.mem_range] at hc
  obtain ⟨k, hk, rfl⟩ := hc
  have h1 : (k + 1) * m ≤ s.length + m - 1 := (Nat.le_div_iff_mul_le hm).mp hk
  rw [Nat.succ_mul] at h1
  simp only [List.length_take, List.length_drop]
  omega

/-- C10: a single line longer than `maxSize`, with no newline, no backtick
and no trailing space, comes back as its consecutive slices of `maxSize` bytes:
`len(s) / maxSize` rounded up many chunks, each of 1 to `maxSize` bytes, whose
concatenation is the line. -/
theorem processRawMessage_single_long_line (s : GoString) (m : Nat) (hm : 0 < m)
    (hlen : m < s.length) (hnl : 10 ∉ s) (hbt : 96 ∉ s) (hsp : s.getLast? ≠ some 32) :
    processRawMessage s m = .ok (consecutiveSlices m s) ∧
      (consecutiveSlices m s).length = (s.length + m - 1) / m ∧
      (consecutiveSlices m s).flatten = s ∧
      ∀ c ∈ consecutiveSlices m s, 1 ≤ c.length ∧ c.length ≤ m := by
  refine ⟨?_, by simp [consecutiveSlices],
    consecutiveSlices_join m hm s.length s (Nat.le_refl _) (by omega),
    fun c hc => consecutiveSlices_length_bounds m hm s c hc⟩
  have hfence : s ≠ fence := by
    intro e
    rw [e] at hbt
    exact hbt (by decide)
  have hlong : (s.length : Int) > (m : Int) := by exact_mod_cast hlen
  obtain ⟨cs, last, hrun, hlast, hcs⟩ :=
    longLineLoop_slices m hm (s.length + 1) s [] (by omega) (by omega)
  have hlastlen : 0 < last.length := List.length_pos.mpr hlast
  simp only [processRawMessage, splitLines_of_no_newline s hnl, processLines,
    trimRight_of_last_ne_space s hsp, hfence, if_false, hlong, if_true, hrun]
  simp [processLines, hlastlen, ← hcs]

set_option maxRecDepth 100000 in
theorem processRawMessage_single_long_line_witness :
    (0 < 3 ∧ 3 < (goString "abcdefg").length ∧ 10 ∉ goString "abcdefg" ∧
      96 ∉ goString "abcdefg" ∧ (goString "abcdefg").getLast? ≠ some 32 ∧
      processRawMessage (goString "abcdefg") (3 : Nat)
        = .ok [goString "abc", goString "def", goString "g"]) ∧
    ∃ chunks, processRawMessage (List.replicate 250 97) (100 : Nat) = .ok chunks ∧
      chunks.map List.length = [100, 100, 50] := by
  have h := (processRawMessage_single_long_line (goString "abcdefg") 3 (by decide)
    (by decide) (by decide) (by decide) (by decide)).1
  have e : consecutiveSlices 3 (goString "abcdefg")
      = [goString "abc", goString "def", goString "g"] := by decide
  rw [e] at h
  have h250 := (processRawMessage_single_long_line (List.replicate 250 97) 100 (by decide)
    (by simp) (by simp [List.mem_replicate]) (by simp [List.mem_replicate]) (by decide)).1
  exact ⟨⟨by decide, by decide, by decide, by decide, by decide, h⟩, _, h250, by decide⟩

/-- C1, amended: every chunk returned has at most `maxSize + 7` bytes.  The
closing marker of a sealed chunk (3 bytes) and the reopening marker with the
newline after it (4 bytes) are written without being counted against `maxSize`. -/
theorem chunk_length_le (message : GoString) (maxSize : Int) (hpos : 0 < maxSize)
    (chunks : List GoString) (h : processRawMessage message maxSize = .ok chunks)
    (c : GoString) (hc : c ∈ chunks) : (c.length : Int) ≤ maxSize + 7 :=
  processLines_bound maxSize (splitLines message) false [] [] chunks h
    (by simp) (by simp; omega) c hc

theorem chunk_length_le_witness :
    (0 : Int) < 3 ∧
      processRawMessage (goString "```") 3 = .ok [goString "```", goString "```\n``````"] ∧
      goString "```\n``````" ∈ [goString "```", goString "```\n``````"] ∧
      (goString "```\n``````").length = 10 ∧
      ((goString "```\n``````").length : Int) ≤ 3 + 7 :=
  ⟨by decide, by decide, by decide, by decide,
    chunk_length_le (goString "```") 3 (by decide)
      [goString "```", goString "```\n``````"] (by decide)
      (goString "```\n``````") (by decide)⟩

/-- C4, amended: for a message with no backtick and a `maxSize` that is at
least the length of the longest line and more than the length of the first line
(its trailing spaces stripped), joining the returned chunks with newlines gives
the message with the trailing spaces of each line stripped, provided every line
that is empty once stripped is read while the builder is neither empty nor full
(`emptyLinesKept`); a message that is one blank line needs no such proviso. -/
theorem chunks_join_lines (message : GoString) (maxSize : Int)
    (hbt : 96 ∉ message)
    (hmax : ∀ l ∈ splitLines message, (l.length : Int) ≤ maxSize)
    (hfirst : ∀ l, (splitLines message).head? = some l →
      ((trimRight l).length : Int) < maxSize)
    (hkept : (splitLines message).map trimRight = [[]] ∨
      emptyLinesKept maxSize 0 (splitLines message) = true) :
    ∃ chunks, processRawMessage message maxSize = .ok chunks ∧
      joinLines chunks = joinLines ((splitLines message).map trimRight) := by
  have hall : ∀ l ∈ splitLines message, trimRight l ≠ fence ∧
      ((trimRight l).length : Int) ≤ maxSize := by
    intro l hl
    refine ⟨?_, ?_⟩
    · intro e
      have h96 : (96 : Nat) ∈ trimRight l := by rw [e]; decide
      exact hbt (mem_of_mem_splitLines message l hl 96 (mem_of_mem_trimRight h96))
    · have h1 := trimRight_length_le l
      have h2 := hmax l hl
      omega
  unfold processRawMessage
  cases hsplit : splitLines message with
  | nil => exact (splitLines_ne_nil message hsplit).elim
  | cons rawLine lines =>
    rw [hsplit] at hall hfirst hkept
    obtain ⟨hnf0, -⟩ := hall rawLine (List.mem_cons_self _ _)
    have hlt := hfirst rawLine rfl
    have hlong : ¬ ((trimRight rawLine).length : Int) > maxSize := by omega
    have hseal : ¬ ((([] : GoString).length : Int) + (trimRight rawLine).length + 1
        > maxSize) := by
      simp only [List.length_nil]
      omega
    rcases hkept with hblank | hkept
    · simp only [List.map_cons, List.cons.injEq, List.map_eq_nil_iff] at hblank
      obtain ⟨h0, hnil⟩ := hblank
      subst hnil
      refine ⟨[], ?_, ?_⟩
      · rw [processLines]
        simp only [hnf0, if_false, hlong, hseal]
        simp [h0, processLines]
      · simp [h0, joinLines]
    · simp only [emptyLinesKept, Bool.and_eq_true, Bool.or_eq_true, decide_eq_true_eq,
        Nat.lt_irrefl, decide_False, Bool.false_and, Bool.or_false] at hkept
      obtain ⟨hne0, hnext⟩ := hkept
      have hheld : heldAfter maxSize 0 (trimRight rawLine).length
          = (trimRight rawLine).length := by
        simp only [heldAfter, Nat.lt_irrefl, if_false, ite_self]
      rw [hheld] at hnext
      obtain ⟨out, hout, hjoin⟩ := processLines_join_kept maxSize lines []
        (trimRight rawLine) hne0 (fun l h => hall l (List.mem_cons_of_mem _ h)) hnext
      refine ⟨out, ?_, ?_⟩
      · rw [processLines]
        simp only [hnf0, if_false, hlong, hseal]
        simpa using hout
      · simpa using hjoin

theorem chunks_join_lines_witness :
    (∃ chunks, processRawMessage (goString "hello  \n\nbig world\nbye\n") 10 = .ok chunks ∧
      joinLines chunks = goString "hello\n\nbig world\nbye\n") ∧
    (∃ chunks, processRawMessage (goString "a\n\nb") 10 = .ok chunks ∧
      joinLines chunks = goString "a\n\nb") ∧
    (∃ chunks, processRawMessage (goString "a\n") 10 = .ok chunks ∧
      joinLines chunks = goString "a\n") ∧
    (∃ chunks, processRawMessage (goString "abc\n\nde") 4 = .ok chunks ∧
      joinLines chunks = goString "abc\n\nde") ∧
    (∃ chunks, processRawMessage (goString "  ") 2 = .ok chunks ∧
      joinLines chunks = []) := by
  have h1 := chunks_join_lines (goString "hello  \n\nbig world\nbye\n") 10
    (by decide) (by decide) (by decide) (Or.inr (by decide))
  have e1 : joinLines ((splitLines (goString "hello  \n\nbig world\nbye\n")).map trimRight)
      = goString "hello\n\nbig world\nbye\n" := by decide
  rw [e1] at h1
  have h2 := chunks_join_lines (goString "a\n\nb") 10
    (by decide) (by decide) (by decide) (Or.inr (by decide))
  have e2 : joinLines ((splitLines (goString "a\n\nb")).map trimRight)
      = goString "a\n\nb" := by decide
  rw [e2] at h2
  have h3 := chunks_join_lines (goString "a\n") 10
    (by decide) (by decide) (by decide) (Or.inr (by decide))
  have e3 : joinLines ((splitLines (goString "a\n")).map trimRight)
      = goString "a\n" := by decide
  rw [e3] at h3
  have h4 := chunks_join_lines (goString "abc\n\nde") 4
    (by decide) (by decide) (by decide) (Or.inr (by decide))
  have e4 : joinLines ((splitLines (goString "abc\n\nde")).map trimRight)
      = goString "abc\n\nde" := by decide
  rw [e4] at h4
  have h5 := chunks_join_lines (goString "  ") 2
    (by decide) (by decide) (by decide) (Or.inl (by decide))
  have e5 : joinLines ((splitLines (goString "  ")).map trimRight) = [] := by decide
  rw [e5] at h5
  exact ⟨h1, h2, h3, h4, h5⟩

/-- The proviso of C4 at work: with `maxSize = 5` the empty third line of this
message is read while the builder holds `ab`, a newline and `cd`, five bytes, so
the builder is sealed, the line is written into the empty builder and is lost. -/
theorem empty_line_at_full_builder_lost :
    emptyLinesKept 5 0 (splitLines (goString "ab\ncd\n\nef")) = false ∧
      processRawMessage (goString "ab\ncd\n\nef") 5
        = .ok [goString "ab\ncd", goString "ef"] ∧
      joinLines [goString "ab\ncd", goString "ef"]
        ≠ joinLines ((splitLines (goString "ab\ncd\n\nef")).map trimRight) ∧
      emptyLinesKept 5 0 (splitLines (goString "\na")) = false := by
  decide

/-! ## Outside a code block -/

/-- Outside a code block, from a builder within `maxSize`, the long-line loop
returns: the chunks it seals and the builder it leaves are within `maxSize` and
hold, in order, what was there before followed by the line. -/
theorem longLineLoop_outside (maxSize : Int) (hpos : 0 < maxSize) (fuel : Nat) :
    ∀ (rest : GoString) (chunks : List GoString) (cur : GoString),
      (cur.length : Int) ≤ maxSize →
      (rest.length + 1 ≤ fuel ∨ ((cur.length : Int) < maxSize ∧ rest.length ≤ fuel)) →
      (∀ c ∈ chunks, (c.length : Int) ≤ maxSize) →
      ∃ chunks1 cur1, longLineLoop maxSize false fuel rest chunks cur = .ok (chunks1, cur1) ∧
        (cur1.length : Int) ≤ maxSize ∧ (∀ c ∈ chunks1, (c.length : Int) ≤ maxSize) ∧
        chunks1.flatten ++ cur1 = chunks.flatten ++ cur ++ rest := by
  induction fuel with
  | zero =>
    intro rest chunks cur hcur hfuel hch
    have hnil : rest = [] := List.length_eq_zero.mp (by omega)
    subst hnil
    exact ⟨chunks, cur, by simp [longLineLoop], hcur, hch, by simp⟩
  | succ fuel ih =>
    intro rest chunks cur hcur hfuel hch
    by_cases hnil : rest = []
    · subst hnil
      exact ⟨chunks, cur, by simp [longLineLoop], hcur, hch, by simp⟩
    · have hlen : 0 < rest.length := List.length_pos.mpr hnil
      rw [longLineLoop]
      simp only [hnil, if_false]
      by_cases hfit : (rest.length : Int) ≤ maxSize - cur.length
      · refine ⟨chunks, cur ++ rest, ?_, ?_, hch, by simp⟩
        · simp [hfit, longLineLoop_nil]
        · simp only [List.length_append]
          omega
      · have hneg : ¬ (maxSize - (cur.length : Int) < 0) := by omega
        simp only [hfit, hneg, if_false]
        obtain ⟨chunks1, cur1, hrun, h1, h2, h3⟩ :=
          ih (rest.drop (maxSize - (cur.length : Int)).toNat)
            (chunks ++ [cur ++ rest.take (maxSize - (cur.length : Int)).toNat]) []
            (by simp; omega)
            (Or.inr ⟨by simpa using hpos, by
              simp only [List.length_drop]
              rcases hfuel with h | ⟨h, h'⟩
              · omega
              · have : 1 ≤ (maxSize - (cur.length : Int)).toNat := by omega
                omega⟩)
            (by
              intro c hc
              simp only [List.mem_append, List.mem_singleton] at hc
              rcases hc with hc | rfl
              · exact hch c hc
              · simp only [List.length_append, List.length_take]
                omega)
        refine ⟨chunks1, cur1, ?_, h1, h2, ?_⟩
        · simpa using hrun
        · rw [h3]
          simp only [List.flatten_append, List.flatten_cons, List.flatten_nil,
            List.append_nil, List.append_assoc, List.take_append_drop]

theorem deleteNewlines_append (a b : GoString) :
    deleteNewlines (a ++ b) = deleteNewlines a ++ deleteNewlines b := by
  simp [deleteNewlines]

theorem deleteNewlines_of_no_newline {s : GoString} (h : 10 ∉ s) : deleteNewlines s = s := by
  unfold deleteNewlines
  rw [List.filter_eq_self]
  intro b hb
  simp only [decide_eq_true_eq]
  exact fun e => h (e ▸ hb)

theorem no_newline_of_mem_splitLines (s : GoString) : ∀ l ∈ splitLines s, 10 ∉ l := by
  induction s with
  | nil =>
    intro l hl
    simp only [splitLines, List.mem_singleton] at hl
    subst hl
    simp
  | cons c cs ih =>
    intro l hl
    rw [splitLines] at hl
    split_ifs at hl with hc
    · simp only [List.mem_cons] at hl
      rcases hl with rfl | hl
      · simp
      · exact ih l hl
    · split at hl
      · simp only [List.mem_singleton] at hl
        subst hl
        simpa using fun e : 10 = c => hc e.symm
      · rename_i l0 ls h0
        simp only [List.mem_cons] at hl
        rcases hl with rfl | hl
        · have h1 := ih l0 (by rw [h0]; exact List.mem_cons_self _ _)
          simp only [List.mem_cons, not_or]
          exact ⟨fun e => hc e.symm, h1⟩
        · exact ih l (by rw [h0]; exact List.mem_cons_of_mem _ hl)

/-- Outside a code block every line is taken in: the run returns, its chunks are
within `maxSize`, and without their newlines they hold what was there before
followed by the lines, trailing spaces stripped. -/
theorem processLines_outside (maxSize : Int) (hpos : 0 < maxSize) (lines : List GoString) :
    ∀ (chunks : List GoString) (cur : GoString),
      (∀ l ∈ lines, trimRight l ≠ fence) → (cur.length : Int) ≤ maxSize →
      (∀ c ∈ chunks, (c.length : Int) ≤ maxSize) →
      ∃ out, processLines maxSize lines false chunks cur = .ok out ∧
        (∀ c ∈ out, (c.length : Int) ≤ maxSize) ∧
        deleteNewlines out.flatten
          = deleteNewlines (chunks.flatten ++ cur ++ (lines.map trimRight).flatten) := by
  induction lines with
  | nil =>
    intro chunks cur _ hcur hch
    by_cases h0 : cur.length > 0
    · refine ⟨chunks ++ [cur], by simp [processLines, h0], ?_, by simp⟩
      intro c hc
      simp only [List.mem_append, List.mem_singleton] at hc
      rcases hc with hc | rfl
      · exact hch c hc
      · exact hcur
    · have hnil : cur = [] := List.length_eq_zero.mp (by omega)
      subst hnil
      exact ⟨chunks, by simp [processLines], hch, by simp⟩
  | cons rawLine lines ih =>
    intro chunks cur hnf hcur hch
    have hnf0 : trimRight rawLine ≠ fence := hnf rawLine (List.mem_cons_self _ _)
    have hnf1 : ∀ l ∈ lines, trimRight l ≠ fence := fun l h => hnf l (List.mem_cons_of_mem _ h)
    rw [processLines]
    simp only [hnf0, if_false, List.map_cons, List.flatten_cons]
    generalize trimRight rawLine = line
    by_cases hlong : (line.length : Int) > maxSize
    · obtain ⟨chunks1, cur1, hrun, h1, h2, h3⟩ :=
        longLineLoop_outside maxSize hpos (line.length + 1) line chunks cur hcur
          (Or.inl (Nat.le_refl _)) hch
      obtain ⟨out, hout, hb, hd⟩ := ih chunks1 cur1 hnf1 h1 h2
      refine ⟨out, ?_, hb, ?_⟩
      · simp only [hlong, if_true, hrun]
        exact hout
      · rw [hd, h3]
        simp only [List.append_assoc]
    · simp only [hlong, if_false]
      by_cases hseal : (cur.length : Int) + line.length + 1 > maxSize
      · obtain ⟨out, hout, hb, hd⟩ := ih (chunks ++ [cur]) line hnf1 (by omega) (by
          intro c hc
          simp only [List.mem_append, List.mem_singleton] at hc
          rcases hc with hc | rfl
          · exact hch c hc
          · exact hcur)
        refine ⟨out, ?_, hb, ?_⟩
        · simpa [hseal] using hout
        · rw [hd]
          simp only [List.flatten_append, List.flatten_cons, List.flatten_nil,
            List.append_nil, List.append_assoc]
      · by_cases h0 : cur.length > 0
        · obtain ⟨out, hout, hb, hd⟩ := ih chunks (cur ++ [10] ++ line) hnf1 (by
            simp only [List.length_append, List.length_singleton]
            push_cast
            omega) hch
          refine ⟨out, ?_, hb, ?_⟩
          · simpa [hseal, h0] using hout
          · rw [hd]
            simp only [deleteNewlines_append, List.append_assoc]
            have h10 : deleteNewlines [10] = [] := by decide
            simp [h10]
        · have hnil : cur = [] := List.length_eq_zero.mp (by omega)
          subst hnil
          obtain ⟨out, hout, hb, hd⟩ := ih chunks line hnf1 (by omega) hch
          have hseal1 : ¬ (maxSize < (line.length : Int) + 1) := by simpa using hseal
          refine ⟨out, ?_, hb, ?_⟩
          · simpa [hseal1] using hout
          · rw [hd]
            simp

/-! ## The pieces of `splitLongLine` -/

theorem lastIndexByte_bounds (b : Nat) (s : GoString) :
    -1 ≤ lastIndexByte b s ∧ lastIndexByte b s < s.length := by
  induction s with
  | nil => simp [lastIndexByte]
  | cons c cs ih =>
    rw [lastIndexByte]
    simp only [List.length_cons]
    push_cast
    split_ifs <;> omega

/-- With a positive threshold that is not above the budget the loop returns:
the pieces it adds make up the input, none is empty or longer than `maxLen`,
and all but the last have `minLen` bytes or more. -/
theorem splitLongLineLoop_spec (maxLen minLen : Nat) (hmin : 0 < minLen)
    (hle : minLen ≤ maxLen) (fuel : Nat) :
    ∀ (input : GoString) (result : List GoString), input.length ≤ fuel →
      ∃ pieces, splitLongLineLoop maxLen minLen fuel input result = .ok (result ++ pieces) ∧
        pieces.flatten = input ∧
        (∀ p ∈ pieces, p ≠ [] ∧ p.length ≤ maxLen) ∧
        (∀ p ∈ pieces.dropLast, minLen ≤ p.length) := by
  induction fuel with
  | zero =>
    intro input result hlen
    have hnil : input = [] := List.length_eq_zero.mp (by omega)
    subst hnil
    exact ⟨[], by simp [splitLongLineLoop], rfl, by simp, by simp⟩
  | succ fuel ih =>
    intro input result hlen
    rw [splitLongLineLoop]
    by_cases hpos : input.length > 0
    · simp only [hpos, if_true]
      by_cases hshort : input.length < minLen
      · refine ⟨[input], by simp [hshort], by simp, ?_, by simp⟩
        intro p hp
        simp only [List.mem_singleton] at hp
        subst hp
        exact ⟨List.length_pos.mp hpos, by omega⟩
      · simp only [hshort, if_false]
        generalize hstop : (if maxLen > input.length then input.length else maxLen) = stop
        have hstop1 : minLen ≤ stop ∧ stop ≤ maxLen ∧ stop ≤ input.length := by
          rw [← hstop]
          split_ifs <;> omega
        have hb := lastIndexByte_bounds 32 (input.take stop)
        rw [List.length_take] at hb
        generalize lastIndexByte 32 (input.take stop) = lastSpace at hb
        generalize hk : (if lastSpace < (minLen : Int) then (stop : Int) else lastSpace).toNat = k
        have hk1 : minLen ≤ k ∧ k ≤ stop := by
          rw [← hk]
          split_ifs <;> omega
        obtain ⟨pieces, hrun, hflat, hall, hinit⟩ :=
          ih (input.drop k) (result ++ [input.take k])
            (by simp only [List.length_drop]; omega)
        refine ⟨input.take k :: pieces, ?_, ?_, ?_, ?_⟩
        · rw [hrun]
          simp
        · rw [List.flatten_cons, hflat, List.take_append_drop]
        · intro p hp
          simp only [List.mem_cons] at hp
          rcases hp with rfl | hp
          · refine ⟨?_, ?_⟩
            · intro h0
              have := congrArg List.length h0
              simp only [List.length_take, List.length_nil] at this
              omega
            · simp only [List.length_take]
              omega
          · exact hall p hp
        · intro p hp
          cases pieces with
          | nil => simp at hp
          | cons q qs =>
            rw [List.dropLast_cons₂] at hp
            simp only [List.mem_cons] at hp
            rcases hp with rfl | hp
            · simp only [List.length_take]
              omega
            · exact hinit p hp
    · have hnil : input = [] := List.length_eq_zero.mp (by omega)
      subst hnil
      exact ⟨[], by simp, rfl, by simp, by simp⟩

/-! ## The replacement of a mention -/

/-- The broadcast case of line 151 is dead for a match, which starts with `@`:
the match goes to the resolver whatever its name is. -/
theorem replaceMention_of_at (resolve : GoString → Bool → GoString × Bool)
    (name : GoString) :
    replaceMention resolve (64 :: name)
      = if (resolve name true).2 = true then goString "<@" ++ (resolve name true).1 ++ goString ">"
        else 64 :: name := by
  have h1 : (64 :: name) ≠ goString "here" := by
    have e : goString "here" = [104, 101, 114, 101] := by decide
    rw [e]
    simp
  have h2 : (64 :: name) ≠ goString "channel" := by
    have e : goString "channel" = [99, 104, 97, 110, 110, 101, 108] := by decide
    rw [e]
    simp
  have h3 : (64 :: name) ≠ goString "everyone" := by
    have e : goString "everyone" = [101, 118, 101, 114, 121, 111, 110, 101] := by decide
    rw [e]
    simp
  simp [replaceMention, h1, h2, h3]

/-- A match of `mentionRe` starts with `@`. -/
theorem mentionAt_head (s : GoString) (n : Nat) (h : mentionAt s = some n) :
    ∃ name, s = 64 :: name := by
  unfold mentionAt at h
  split at h
  · exact ⟨_, rfl⟩
  · simp at h

/-- The loop at work on a small budget: with `maxLen = 10` and `minLen = 5` a
line is cut at the last space of its first ten bytes when that space is at index
5 or more, and after ten bytes otherwise. -/
theorem splitLongLineWith_small :
    splitLongLineWith 10 5 (goString "hello world this is") =
        .ok [goString "hello", goString " world", goString " this", goString " is"] ∧
      splitLongLineWith 10 5 (goString "abcdefghijklmno") =
        .ok [goString "abcdefghij", goString "klmno"] ∧
      splitLongLine (goString "hello world") = .ok [goString "hello world"] := by
  decide

/-- The proviso of the amended C4 is needed: for a message with no backtick and
a `maxSize` that is at least the length of the longest line, when no returned
chunk is empty and the chunks joined with newlines give the message with the
trailing spaces of each line stripped, then the message is one blank line or
every empty line is read while the builder is neither empty nor full. -/
theorem join_lines_needs_kept (message : GoString) (maxSize : Int)
    (chunks : List GoString) (hbt : 96 ∉ message)
    (hmax : ∀ l ∈ splitLines message, (l.length : Int) ≤ maxSize)
    (hrun : processRawMessage message maxSize = .ok chunks) (hno : [] ∉ chunks)
    (hjoin : joinLines chunks = joinLines ((splitLines message).map trimRight)) :
    (splitLines message).map trimRight = [[]] ∨
      emptyLinesKept maxSize 0 (splitLines message) = true := by
  have hall : ∀ l ∈ splitLines message, trimRight l ≠ fence ∧
      ((trimRight l).length : Int) ≤ maxSize ∧ 10 ∉ trimRight l := by
    intro l hl
    refine ⟨?_, ?_, ?_⟩
    · intro e
      have h96 : (96 : Nat) ∈ trimRight l := by rw [e]; decide
      exact hbt (mem_of_mem_splitLines message l hl 96 (mem_of_mem_trimRight h96))
    · have h1 := trimRight_length_le l
      have h2 := hmax l hl
      omega
    · exact fun h => no_newline_of_mem_splitLines message l hl (mem_of_mem_trimRight h)
  have hzero : List.count 10 ((splitLines message).map trimRight).flatten = 0 := by
    rw [List.count_eq_zero]
    intro h
    simp only [List.mem_flatten, List.mem_map] at h
    obtain ⟨t, ⟨l, hl, rfl⟩, h10⟩ := h
    exact (hall l hl).2.2 h10
  have hne := splitLines_ne_nil message
  unfold processRawMessage at hrun
  generalize splitLines message = lines at hall hzero hne hrun hjoin ⊢
  cases hk : emptyLinesKept maxSize 0 lines with
  | true => exact Or.inr rfl
  | false =>
    left
    have hlt := (processLines_line_count maxSize lines [] [] chunks hall hrun hno).2 hk
    simp only [List.flatten_nil, List.append_nil, List.count_nil, List.length_nil,
      if_true, Nat.zero_add, Nat.add_zero] at hlt
    have hT : lines.map trimRight ≠ [] := by simpa using hne
    have hcT := count_newline_joinLines (lines.map trimRight) hT
    rw [hzero, List.length_map, Nat.zero_add] at hcT
    cases chunks with
    | nil =>
      have hj : joinLines (lines.map trimRight) = [] := by
        rw [← hjoin]
        rfl
      rw [hj] at hcT
      simp only [List.count_nil, Nat.zero_add] at hcT
      cases lines with
      | nil => exact absurd rfl hne
      | cons l ls =>
        have hls : ls = [] :=
          List.length_eq_zero.mp (by simp only [List.length_cons] at hcT; omega)
        subst hls
        simp only [List.map_cons, List.map_nil, joinLines] at hj ⊢
        rw [hj]
    | cons c cs =>
      have hcC := count_newline_joinLines (c :: cs) (by simp)
      rw [hjoin] at hcC
      omega

/-- The limit on the first line in the amended C4 is needed as well: for a
message with no backtick and a `maxSize` that is at least the length of the
longest line, when no returned chunk is empty the first line, its trailing
spaces stripped, is shorter than `maxSize`. -/
theorem first_line_shorter_of_no_empty_chunk (message : GoString) (maxSize : Int)
    (chunks : List GoString) (hbt : 96 ∉ message)
    (hmax : ∀ l ∈ splitLines message, (l.length : Int) ≤ maxSize)
    (hrun : processRawMessage message maxSize = .ok chunks) (hno : [] ∉ chunks) :
    ∀ l, (splitLines message).head? = some l → ((trimRight l).length : Int) < maxSize := by
  have hfit : ∀ l ∈ splitLines message, trimRight l ≠ fence ∧
      ((trimRight l).length : Int) ≤ maxSize := by
    intro l hl
    refine ⟨?_, ?_⟩
    · intro e
      have h96 : (96 : Nat) ∈ trimRight l := by rw [e]; decide
      exact hbt (mem_of_mem_splitLines message l hl 96 (mem_of_mem_trimRight h96))
    · have h1 := trimRight_length_le l
      have h2 := hmax l hl
      omega
  unfold processRawMessage at hrun
  generalize splitLines message = lines at hfit hrun
  intro l hl
  cases lines with
  | nil => simp at hl
  | cons rawLine rest =>
    simp only [List.head?_cons, Option.some.injEq] at hl
    subst hl
    by_contra hge
    obtain ⟨hnf, hlen⟩ := hfit rawLine (List.mem_cons_self _ _)
    have hlong : ¬ ((trimRight rawLine).length : Int) > maxSize := by omega
    have hseal : ((([] : GoString).length : Int) + (trimRight rawLine).length + 1
        > maxSize) := by
      simp only [List.length_nil]
      omega
    rw [processLines] at hrun
    simp only [hnf, hlong, if_false, hseal, if_true, Bool.false_eq_true] at hrun
    exact hno (processLines_chunks_subset maxSize rest _ _ _ chunks
      (fun l h => (hfit l (List.mem_cons_of_mem _ h)).2) hrun [] (by simp))

/-- C11: for the message of the four lines marker, `code line one`,
`code line two`, marker and every `maxSize` from 21 to 30 there are exactly two
chunks: the opening marker and `code line one` closed by an added marker, then an
added marker, `code line two` and the closing marker of the message, with nothing
after it; the fence state after the four lines is outside. -/
theorem processRawMessage_code_block_split (maxSize : Int) (h1 : 21 ≤ maxSize)
    (h2 : maxSize ≤ 30) :
    processRawMessage (goString "```\ncode line one\ncode line two\n```") maxSize
        = .ok [goString "```\ncode line one```", goString "```\ncode line two\n```"] ∧
      codeBlockAfter (splitLines (goString "```\ncode line one\ncode line two\n```")) false
        = false := by
  interval_cases maxSize <;> decide

theorem processRawMessage_code_block_split_witness :
    (21 : Int) ≤ 25 ∧ (25 : Int) ≤ 30 ∧
      processRawMessage (goString "```\ncode line one\ncode line two\n```") 25
        = .ok [goString "```\ncode line one```", goString "```\ncode line two\n```"] :=
  ⟨by decide, by decide,
    (processRawMessage_code_block_split 25 (by decide) (by decide)).1⟩

/-- C12: with a positive `maxSize`, a message all of whose lines are empty once
their trailing spaces are stripped gives no chunk; the empty message is one. -/
theorem processRawMessage_blank (message : GoString) (maxSize : Int) (hpos : 0 < maxSize)
    (h : ∀ l ∈ splitLines message, trimRight l = []) :
    processRawMessage message maxSize = .ok [] := by
  unfold processRawMessage
  generalize splitLines message = lines at h
  induction lines with
  | nil => rfl
  | cons rawLine lines ih =>
    have h0 : trimRight rawLine = [] := h rawLine (List.mem_cons_self _ _)
    have hlong : ¬ ((([] : GoString).length : Int) > maxSize) := by
      simp only [List.length_nil]
      omega
    have hseal : ¬ ((([] : GoString).length : Int) + (([] : GoString).length : Int) + 1
        > maxSize) := by
      simp only [List.length_nil]
      omega
    rw [processLines]
    simp only [h0, hlong, hseal, if_false]
    have hf : ¬ (([] : GoString) = fence) := by decide
    simp only [hf, if_false, List.length_nil, gt_iff_lt, Nat.lt_irrefl, List.append_nil]
    exact ih (fun l hl => h l (List.mem_cons_of_mem _ hl))

theorem processRawMessage_blank_witness :
    processRawMessage [] 1 = .ok [] ∧
      (∀ l ∈ splitLines (goString "  \n\n "), trimRight l = []) ∧
      processRawMessage (goString "  \n\n ") 4 = .ok [] :=
  ⟨processRawMessage_blank [] 1 (by decide) (by decide), by decide,
    processRawMessage_blank (goString "  \n\n ") 4 (by decide) (by decide)⟩

/-- C17: when no line of the message is the marker once its trailing spaces are
stripped, and `maxSize` is positive, the run returns and every chunk has at most
`maxSize` bytes (the builder never holds more). -/
theorem processRawMessage_outside_bound (message : GoString) (maxSize : Int)
    (hpos : 0 < maxSize) (hnf : ∀ l ∈ splitLines message, trimRight l ≠ fence) :
    ∃ chunks, processRawMessage message maxSize = .ok chunks ∧
      ∀ c ∈ chunks, (c.length : Int) ≤ maxSize := by
  obtain ⟨out, hout, hb, -⟩ :=
    processLines_outside maxSize hpos (splitLines message) [] [] hnf (by simp; omega) (by simp)
  exact ⟨out, hout, hb⟩

theorem processRawMessage_outside_bound_witness :
    ∃ chunks, processRawMessage (goString "one two  \nabcdefghijkl\n\n`` `") 5 = .ok chunks ∧
      ∀ c ∈ chunks, (c.length : Int) ≤ 5 :=
  processRawMessage_outside_bound (goString "one two  \nabcdefghijkl\n\n`` `") 5
    (by decide) (by decide)

/-- C18: when no line of the message is the marker once its trailing spaces are
stripped, and `maxSize` is positive, the returned chunks put end to end, their
newlines deleted, are the lines of the message put end to end, trailing spaces
stripped. -/
theorem processRawMessage_outside_content (message : GoString) (maxSize : Int)
    (hpos : 0 < maxSize) (hnf : ∀ l ∈ splitLines message, trimRight l ≠ fence) :
    ∃ chunks, processRawMessage message maxSize = .ok chunks ∧
      deleteNewlines chunks.flatten = ((splitLines message).map trimRight).flatten := by
  obtain ⟨out, hout, -, hd⟩ :=
    processLines_outside maxSize hpos (splitLines message) [] [] hnf (by simp; omega) (by simp)
  refine ⟨out, hout, ?_⟩
  rw [hd]
  simp only [List.flatten_nil, List.nil_append]
  apply deleteNewlines_of_no_newline
  intro h
  simp only [List.mem_flatten, List.mem_map] at h
  obtain ⟨t, ⟨l, hl, rfl⟩, h10⟩ := h
  exact no_newline_of_mem_splitLines message l hl (mem_of_mem_trimRight h10)

theorem processRawMessage_outside_content_witness :
    ∃ chunks, processRawMessage (goString "one two  \nabcdefghijkl\n\n`` `") 5 = .ok chunks ∧
      deleteNewlines chunks.flatten = goString "one twoabcdefghijkl`` `" := by
  have h := processRawMessage_outside_content (goString "one two  \nabcdefghijkl\n\n`` `") 5
    (by decide) (by decide)
  have e : ((splitLines (goString "one two  \nabcdefghijkl\n\n`` `")).map trimRight).flatten
      = goString "one twoabcdefghijkl`` `" := by decide
  rw [e] at h
  exact h

/-- C13: with `MaxMessageTextLength = 200`, so `maxLen = 40000` and
`minLen = 20000`, `splitLongLine` returns for every line, no piece is empty or
longer than `maxLen`, and every piece but the last has `minLen` bytes or more. -/
theorem splitLongLine_piece_lengths (input : GoString) :
    MaxMessageTextLength * MaxMessageTextLength = 40000 ∧
      MaxMessageTextLength * MaxMessageTextLength / 2 = 20000 ∧
      ∃ pieces, splitLongLine input = .ok pieces ∧
        (∀ p ∈ pieces, p ≠ [] ∧ p.length ≤ 40000) ∧
        (∀ p ∈ pieces.dropLast, 20000 ≤ p.length) := by
  refine ⟨by decide, by decide, ?_⟩
  obtain ⟨pieces, hrun, -, hall, hinit⟩ :=
    splitLongLineLoop_spec 40000 20000 (by decide) (by decide) input.length input []
      (Nat.le_refl _)
  exact ⟨pieces, by simpa [splitLongLine, splitLongLineWith, MaxMessageTextLength] using hrun,
    hall, hinit⟩

/-- C14: the pieces that `splitLongLine` returns, put end to end, are the input
line; the empty line gives no piece. -/
theorem splitLongLine_flatten (input : GoString) :
    (∃ pieces, splitLongLine input = .ok pieces ∧ pieces.flatten = input) ∧
      splitLongLine [] = .ok [] := by
  refine ⟨?_, by decide⟩
  obtain ⟨pieces, hrun, hflat, -, -⟩ :=
    splitLongLineLoop_spec 40000 20000 (by decide) (by decide) input.length input []
      (Nat.le_refl _)
  exact ⟨pieces, by simpa [splitLongLine, splitLongLineWith, MaxMessageTextLength] using hrun,
    hflat⟩

end MessageSplitter
